import Mathlib

/-!
Verification model of the `kasegao/golang-lru` repository.

The repository has two components:

* `simplelru/lru_generics.go`: `LRUG`, a fixed-size LRU cache backed by an
  insertion-ordered map (`github.com/kasegao/go-orderedmap`).  The ordered map
  is modelled here as a `List (K × V)` kept oldest-first (head = oldest entry,
  tail = most recently inserted/touched).  The ordered-map operations used by
  the Go code (`Get`, `Set`, `ToTail`, `Pop`/`Delete`, `GetAt 0`, `Keys`,
  `Len`) are embedded as the `om*` functions below, following the documented
  behaviour of the dependency: `Set` updates the value of an existing key in
  place (keeping its position) and appends a new key at the tail; `ToTail`
  moves an existing key's entry to the tail; `Pop` removes the entry of a key.

* `2q_generics.go`: `TwoQueueCacheG`, the 2Q cache built from three `LRUG`
  pools (`recent`, `frequent`, `recentEvict`).

Go `int` values (sizes, lengths, counts) are modelled as `Int`.  The `float64`
ratio parameters of `New2QParamsG` are modelled as `ℚ`; the Go conversion
`int(float64(size) * ratio)` truncates toward zero, which for a nonnegative
product (guaranteed by the validation `0 ≤ ratio ≤ 1` together with
`0 < size`, checked before the conversion happens) coincides with `Int.floor`.
All caches in `2q_generics.go` are created with a `nil` eviction callback, and
no claim concerns the callback, so `onEvict` is omitted from the model.
-/

set_option autoImplicit false

namespace GolangLRU

variable {K V : Type} [DecidableEq K]

/-- Ordered-map membership test (`OrderedMap.Get`'s `ok` result). -/
def omContains : List (K × V) → K → Bool
  | [], _ => false
  | e :: l, k => if e.1 = k then true else omContains l k

/-- Ordered-map lookup (`OrderedMap.Get`). -/
def omGet : List (K × V) → K → Option V
  | [], _ => none
  | e :: l, k => if e.1 = k then some e.2 else omGet l k

/-- Ordered-map `Set`: update an existing key's value in place, or append a
new key at the tail. -/
def omSet : List (K × V) → K → V → List (K × V)
  | [], k, v => [(k, v)]
  | e :: l, k, v => if e.1 = k then (k, v) :: l else e :: omSet l k v

/-- Ordered-map `Pop`/`Delete`: remove the entry of a key (keys are unique in
any map built by `omSet`, so this removes at most one entry in every state
the caches reach). -/
def omErase : List (K × V) → K → List (K × V)
  | [], _ => []
  | e :: l, k => if e.1 = k then omErase l k else e :: omErase l k

/-- Ordered-map `ToTail`: move an existing key's entry to the tail; no-op when
the key is absent. -/
def omToTail (l : List (K × V)) (k : K) : List (K × V) :=
  match omGet l k with
  | some v => omErase l k ++ [(k, v)]
  | none => l

/-- `LRUG` from `simplelru/lru_generics.go`: a fixed-size LRU cache.  `items`
is the backing ordered map, oldest entry first. -/
structure LRUG (K V : Type) where
  size : Int
  items : List (K × V)
  deriving Repr, DecidableEq

/-- `LRUG.Len`: number of items (Go returns an `int`). -/
def LRUG.Len (c : LRUG K V) : Int := c.items.length

/-- `NewLRUG`: constructs an LRU of the given size; errors when `size <= 0`. -/
def NewLRUG (K V : Type) (size : Int) : Except String (LRUG K V) :=
  if size ≤ 0 then Except.error "must provide a positive size"
  else Except.ok { size := size, items := [] }

/-- `LRUG.removeOldest` (the private Go method): drop the entry at position 0,
if any. -/
def LRUG.removeOldest (c : LRUG K V) : LRUG K V :=
  match c.items.head? with
  | some e => { c with items := omErase c.items e.1 }
  | none => c

/-- `LRUG.RemoveOldest`: remove and return the oldest entry. -/
def LRUG.RemoveOldest (c : LRUG K V) : Option (K × V) × LRUG K V :=
  match c.items.head? with
  | some e => (some e, { c with items := omErase c.items e.1 })
  | none => (none, c)

/-- `LRUG.Add`: move an existing key to the tail, write the value, and evict
the oldest entry when the count exceeds `size`.  Returns whether an eviction
occurred, paired with the new cache state. -/
def LRUG.Add (c : LRUG K V) (k : K) (v : V) : Bool × LRUG K V :=
  let items1 := if omContains c.items k then omToTail c.items k else c.items
  let c1 : LRUG K V := { c with items := omSet items1 k v }
  let evict : Bool := decide ((c1.items.length : Int) > c.size)
  (evict, if evict then c1.removeOldest else c1)

/-- `LRUG.Peek`: lookup without touching recency. -/
def LRUG.Peek (c : LRUG K V) (k : K) : Option V := omGet c.items k

/-- `LRUG.Get`: lookup; on a hit the key moves to the tail (most recently
used). -/
def LRUG.Get (c : LRUG K V) (k : K) : Option V × LRUG K V :=
  match c.Peek k with
  | some v => (some v, { c with items := omToTail c.items k })
  | none => (none, c)

/-- `LRUG.Contains`: membership without touching recency. -/
def LRUG.Contains (c : LRUG K V) (k : K) : Bool := omContains c.items k

/-- `LRUG.Remove`: remove a key, returning whether it was present. -/
def LRUG.Remove (c : LRUG K V) (k : K) : Bool × LRUG K V :=
  if omContains c.items k then (true, { c with items := omErase c.items k })
  else (false, c)

/-- `LRUG.Keys`: all keys, oldest first. -/
def LRUG.Keys (c : LRUG K V) : List K := c.items.map Prod.fst

/-- `LRUG.Purge`: remove every entry. -/
def LRUG.Purge (c : LRUG K V) : LRUG K V := { c with items := [] }

/-- Iterated `removeOldest`, used by `Resize`. -/
def LRUG.removeOldestN (c : LRUG K V) : Nat → LRUG K V
  | 0 => c
  | n + 1 => (c.removeOldest).removeOldestN n

/-- `LRUG.Resize`: evict oldest entries until the count fits the new size,
then adopt the new size; returns the number of evictions requested. -/
def LRUG.Resize (c : LRUG K V) (size : Int) : Int × LRUG K V :=
  let diff0 := c.Len - size
  let diff := if diff0 < 0 then 0 else diff0
  let c1 := c.removeOldestN diff.toNat
  (diff, { c1 with size := size })

/-- `TwoQueueCacheG` from `2q_generics.go`: the 2Q cache over three LRU
pools.  The `sync.RWMutex` field guards the structure against concurrent use
and carries no state visible to the sequential semantics, so it has no
counterpart here. -/
structure TwoQueueCacheG (K V : Type) where
  size : Int
  recentSize : Int
  recent : LRUG K V
  frequent : LRUG K V
  recentEvict : LRUG K V
  deriving Repr, DecidableEq

/-- `New2QParamsG`: validate the parameters, derive the sub-sizes, and build
the three pools.  `recent` and `frequent` get capacity `size`; `recentEvict`
gets capacity `floor(size * ghostRatio)` — and `NewLRUG` rejects that
capacity when it is not positive. -/
def New2QParamsG (K V : Type) [DecidableEq K] (size : Int)
    ( recentRatio ghostRatio : ℚ) : Except String (TwoQueueCacheG K V) :=
  if size ≤ 0 then Except.error "invalid size"
  else if recentRatio < 0 ∨ recentRatio > 1 then Except.error "invalid recent ratio"
  else if ghostRatio < 0 ∨ ghostRatio > 1 then Except.error "invalid ghost ratio"
  else
    let recentSize : Int := ⌊(size : ℚ) * recentRatio⌋
    let evictSize : Int := ⌊(size : ℚ) * ghostRatio⌋
    match NewLRUG K V size with
    | Except.error e => Except.error e
    | Except.ok recent =>
      match NewLRUG K V size with
      | Except.error e => Except.error e
      | Except.ok frequent =>
        match NewLRUG K V evictSize with
        | Except.error e => Except.error e
        | Except.ok recentEvict =>
          Except.ok { size := size, recentSize := recentSize, recent := recent,
                      frequent := frequent, recentEvict := recentEvict }

/-- `Default2QRecentRatioG = 0.25`. -/
def Default2QRecentRatioG : ℚ := 1 / 4

/-- `Default2QGhostEntriesG = 0.50`. -/
def Default2QGhostEntriesG : ℚ := 1 / 2

/-- `New2QG`: construction with the default ratios. -/
def New2QG (K V : Type) [DecidableEq K] (size : Int) :
    Except String (TwoQueueCacheG K V) :=
  New2QParamsG K V size Default2QRecentRatioG Default2QGhostEntriesG

/-- `TwoQueueCacheG.ensureSpace`: when `recent` plus `frequent` is below
`size` do nothing; otherwise evict from `recent` into the ghost pool when the
guard holds, and fall back to evicting `frequent`'s oldest.  The Go code reads
the evicted key out of `RemoveOldest` without checking `ok` (the guard makes
`recent` non-empty there); the model mirrors that with `Inhabited` defaults,
matching Go's zero values. -/
def TwoQueueCacheG.ensureSpace [Inhabited K] [Inhabited V]
    (c : TwoQueueCacheG K V) ( recentEvict : Bool) : TwoQueueCacheG K V :=
  let recentLen := c.recent.Len
  let freqLen := c.frequent.Len
  if recentLen + freqLen < c.size then c
  else if recentLen > 0 ∧
      (recentLen > c.recentSize ∨ (recentLen = c.recentSize ∧ recentEvict = false)) then
    let r := c.recent.RemoveOldest
    let k : K := (r.1.map Prod.fst).getD default
    { c with recent := r.2, recentEvict := (c.recentEvict.Add k default).2 }
  else
    { c with frequent := c.frequent.removeOldest }

/-- `TwoQueueCacheG.Get`: frequent hit promotes in place; recent hit moves the
entry into `frequent`; otherwise a miss with no state change. -/
def TwoQueueCacheG.Get (c : TwoQueueCacheG K V) (k : K) :
    Option V × TwoQueueCacheG K V :=
  match c.frequent.Get k with
  | (some v, freq1) => (some v, { c with frequent := freq1 })
  | (none, _) =>
    match c.recent.Peek k with
    | some v =>
      (some v, { c with recent := (c.recent.Remove k).2,
                        frequent := (c.frequent.Add k v).2 })
    | none => (none, c)

/-- `TwoQueueCacheG.Add`: refresh in `frequent`, or promote from `recent`, or
re-admit a ghost into `frequent` (after `ensureSpace true`), or insert a new
key into `recent` (after `ensureSpace false`). -/
def TwoQueueCacheG.Add [Inhabited K] [Inhabited V]
    (c : TwoQueueCacheG K V) (k : K) (v : V) : TwoQueueCacheG K V :=
  if c.frequent.Contains k then { c with frequent := (c.frequent.Add k v).2 }
  else if c.recent.Contains k then
    { c with recent := (c.recent.Remove k).2, frequent := (c.frequent.Add k v).2 }
  else if c.recentEvict.Contains k then
    let c1 := c.ensureSpace true
    { c1 with recentEvict := (c1.recentEvict.Remove k).2,
              frequent := (c1.frequent.Add k v).2 }
  else
    let c1 := c.ensureSpace false
    { c1 with recent := (c1.recent.Add k v).2 }

/-- `TwoQueueCacheG.Len`: cached entries; ghosts excluded. -/
def TwoQueueCacheG.Len (c : TwoQueueCacheG K V) : Int :=
  c.recent.Len + c.frequent.Len

/-- `TwoQueueCacheG.Keys`: frequent keys then recent keys, each oldest
first. -/
def TwoQueueCacheG.Keys (c : TwoQueueCacheG K V) : List K :=
  c.frequent.Keys ++ c.recent.Keys

/-- `TwoQueueCacheG.Remove`: delete from the first pool that holds the key,
trying `frequent`, `recent`, `recentEvict` in that order. -/
def TwoQueueCacheG.Remove (c : TwoQueueCacheG K V) (k : K) : TwoQueueCacheG K V :=
  if (c.frequent.Remove k).1 then { c with frequent := (c.frequent.Remove k).2 }
  else if (c.recent.Remove k).1 then { c with recent := (c.recent.Remove k).2 }
  else if (c.recentEvict.Remove k).1 then
    { c with recentEvict := (c.recentEvict.Remove k).2 }
  else c

/-- `TwoQueueCacheG.Purge`: clear all three pools. -/
def TwoQueueCacheG.Purge (c : TwoQueueCacheG K V) : TwoQueueCacheG K V :=
  { c with recent := c.recent.Purge, frequent := c.frequent.Purge,
           recentEvict := c.recentEvict.Purge }

/-- `TwoQueueCacheG.Contains`: key is cached in `frequent` or `recent`;
ghosts do not count. -/
def TwoQueueCacheG.Contains (c : TwoQueueCacheG K V) (k : K) : Bool :=
  c.frequent.Contains k || c.recent.Contains k

/-- `TwoQueueCacheG.Peek`: read `frequent` then `recent` without promoting. -/
def TwoQueueCacheG.Peek (c : TwoQueueCacheG K V) (k : K) : Option V :=
  match c.frequent.Peek k with
  | some v => some v
  | none => c.recent.Peek k

/-- One public operation of the Two-Queue Cache.  `contains`, `peek`, `keys`
and `len` are pure reads; they are carried so that operation sequences range
over the full public API. -/
inductive TwoQOp (K V : Type) where
  | get (k : K)
  | add (k : K) (v : V)
  | remove (k : K)
  | contains (k : K)
  | peek (k : K)
  | keys
  | len
  | purge
  deriving Repr

/-- State after one public operation. -/
def TwoQApply [Inhabited K] [Inhabited V] (c : TwoQueueCacheG K V) :
    TwoQOp K V → TwoQueueCacheG K V
  | TwoQOp.get k => (c.Get k).2
  | TwoQOp.add k v => c.Add k v
  | TwoQOp.remove k => c.Remove k
  | TwoQOp.contains _ => c
  | TwoQOp.peek _ => c
  | TwoQOp.keys => c
  | TwoQOp.len => c
  | TwoQOp.purge => c.Purge

/-- State after a sequence of public operations. -/
def TwoQRun [Inhabited K] [Inhabited V] (c : TwoQueueCacheG K V) :
    List (TwoQOp K V) → TwoQueueCacheG K V
  | [] => c
  | op :: ops => TwoQRun (TwoQApply c op) ops

/-- The backing ordered map never holds two entries with the same key; every
state reachable through the public API satisfies this. -/
def LRUG.NodupKeys (c : LRUG K V) : Prop := (c.items.map Prod.fst).Nodup

/-- Structural invariant of every reachable `TwoQueueCacheG` state: the pool
capacities fixed by `New2QParamsG`, unique keys inside each pool, each pool
within its own capacity, and pairwise disjoint key sets. -/
structure TwoQWF (c : TwoQueueCacheG K V) : Prop where
  size_pos : 1 ≤ c.size
  rsize : c.recent.size = c.size
  fsize : c.frequent.size = c.size
  gsize : 1 ≤ c.recentEvict.size
  rnodup : c.recent.NodupKeys
  fnodup : c.frequent.NodupKeys
  gnodup : c.recentEvict.NodupKeys
  rlen : c.recent.Len ≤ c.recent.size
  flen : c.frequent.Len ≤ c.frequent.size
  glen : c.recentEvict.Len ≤ c.recentEvict.size
  disj_rf : ∀ a, a ∈ c.recent.items.map Prod.fst →
    a ∈ c.frequent.items.map Prod.fst → False
  disj_rg : ∀ a, a ∈ c.recent.items.map Prod.fst →
    a ∈ c.recentEvict.items.map Prod.fst → False
  disj_fg : ∀ a, a ∈ c.frequent.items.map Prod.fst →
    a ∈ c.recentEvict.items.map Prod.fst → False

/-- Freshly built Two-Queue cache of size 4 with the default ratios
(recentSize 1, ghost capacity 2). -/
def twoqInit4 : TwoQueueCacheG Nat Nat :=
  { size := 4, recentSize := 1,
    recent := { size := 4, items := [] },
    frequent := { size := 4, items := [] },
    recentEvict := { size := 2, items := [] } }

/-- The size-4 default-ratio cache after adding keys 1-4 (all land in
`recent`; the cache is now full). -/
def twoqFull4 : TwoQueueCacheG Nat Nat :=
  TwoQRun twoqInit4
    [TwoQOp.add 1 10, TwoQOp.add 2 20, TwoQOp.add 3 30, TwoQOp.add 4 40]

/-- Freshly built Two-Queue cache of size 4 with recentRatio 1.0 and
ghostRatio 0.5 (so recentSize = size = 4). -/
def twoqInitR1 : TwoQueueCacheG Nat Nat :=
  { size := 4, recentSize := 4,
    recent := { size := 4, items := [] },
    frequent := { size := 4, items := [] },
    recentEvict := { size := 2, items := [] } }

/-- The ratio-1.0 cache after adding keys 1-5: `recent` holds 2,3,4,5 and
key 1 is a ghost; `frequent` is empty while the cache is full. -/
def twoqR1Full : TwoQueueCacheG Nat Nat :=
  TwoQRun twoqInitR1
    [TwoQOp.add 1 0, TwoQOp.add 2 0, TwoQOp.add 3 0, TwoQOp.add 4 0,
     TwoQOp.add 5 0]

/-- `LRUG.GetOldest`: read the oldest entry without removing it. -/
def LRUG.GetOldest (c : LRUG K V) : Option (K × V) := c.items.head?

/-- One public operation of the Bounded Ordered Cache (`Resize` is treated
separately in `lru_resize_spec`, since it is the one operation that changes
the capacity). -/
inductive LRUOp (K V : Type) where
  | add (k : K) (v : V)
  | get (k : K)
  | remove (k : K)
  | removeOldest
  | purge
  | peek (k : K)
  | contains (k : K)
  | getOldest
  | keys
  | len

/-- State after one public operation. -/
def LRUApply (c : LRUG K V) : LRUOp K V → LRUG K V
  | LRUOp.add k v => (c.Add k v).2
  | LRUOp.get k => (c.Get k).2
  | LRUOp.remove k => (c.Remove k).2
  | LRUOp.removeOldest => (c.RemoveOldest).2
  | LRUOp.purge => c.Purge
  | LRUOp.peek _ => c
  | LRUOp.contains _ => c
  | LRUOp.getOldest => c
  | LRUOp.keys => c
  | LRUOp.len => c

/-- State after a sequence of public operations. -/
def LRURun (c : LRUG K V) : List (LRUOp K V) → LRUG K V
  | [] => c
  | op :: ops => LRURun (LRUApply c op) ops

/-- Concrete capacity-3 cache holding three entries, for the Resize
witness. -/
def lruThree : LRUG Nat Nat :=
  { size := 3, items := [(1, 10), (2, 20), (3, 30)] }

/-- Concrete capacity-2 cache holding one entry, for the Get witness. -/
def lruOne : LRUG Nat Nat :=
  { size := 2, items := [(1, 10)] }

/-! ### Lemmas and claim theorems -/

theorem omContains_iff_mem (l : List (K × V)) (k : K) :
    omContains l k = true ↔ k ∈ l.map Prod.fst := by
  induction l with
  | nil => simp [omContains]
  | cons e l ih =>
    simp only [omContains, List.map_cons, List.mem_cons]
    by_cases h : e.1 = k
    · simp [h]
    · rw [if_neg h, ih]
      constructor
      · exact Or.inr
      · rintro (hk | hk)
        · exact absurd hk.symm h
        · exact hk

theorem omContains_eq_false_iff (l : List (K × V)) (k : K) :
    omContains l k = false ↔ k ∉ l.map Prod.fst := by
  rw [← omContains_iff_mem]
  cases omContains l k <;> simp

theorem omGet_eq_none_iff (l : List (K × V)) (k : K) :
    omGet l k = none ↔ k ∉ l.map Prod.fst := by
  induction l with
  | nil => simp [omGet]
  | cons e l ih =>
    simp only [omGet, List.map_cons, List.mem_cons]
    by_cases h : e.1 = k
    · simp [h]
    · rw [if_neg h, ih]
      constructor
      · intro hk h1
        rcases h1 with h1 | h1
        · exact h h1.symm
        · exact hk h1
      · intro hk h1
        exact hk (Or.inr h1)

theorem omGet_isSome_iff (l : List (K × V)) (k : K) :
    (omGet l k).isSome = true ↔ k ∈ l.map Prod.fst := by
  constructor
  · intro hs
    by_contra hmem
    rw [(omGet_eq_none_iff l k).2 hmem] at hs
    simp at hs
  · intro hmem
    cases hg : omGet l k with
    | none => exact absurd hmem ((omGet_eq_none_iff l k).1 hg)
    | some v => rfl

theorem omGet_omSet_self (l : List (K × V)) (k : K) (v : V) :
    omGet (omSet l k v) k = some v := by
  induction l with
  | nil => simp [omSet, omGet]
  | cons e l ih =>
    by_cases h : e.1 = k <;> simp [omSet, omGet, h, ih]

theorem omGet_omSet_ne (l : List (K × V)) (k a : K) (v : V) (h : a ≠ k) :
    omGet (omSet l k v) a = omGet l a := by
  induction l with
  | nil => simp [omSet, omGet, Ne.symm h]
  | cons e l ih =>
    by_cases he : e.1 = k
    · subst he
      simp [omSet, omGet, Ne.symm h]
    · simp [omSet, omGet, he, ih]

theorem length_omSet_of_mem (l : List (K × V)) (k : K) (v : V)
    (h : k ∈ l.map Prod.fst) : (omSet l k v).length = l.length := by
  induction l with
  | nil => simp at h
  | cons e l ih =>
    by_cases he : e.1 = k
    · simp [omSet, he]
    · simp only [List.map_cons, List.mem_cons] at h
      rcases h with h | h
      · exact absurd h.symm he
      · simp [omSet, he, ih h]

theorem length_omSet_of_not_mem (l : List (K × V)) (k : K) (v : V)
    (h : k ∉ l.map Prod.fst) : (omSet l k v).length = l.length + 1 := by
  induction l with
  | nil => simp [omSet]
  | cons e l ih =>
    simp only [List.map_cons, List.mem_cons] at h
    push_neg at h
    simp [omSet, Ne.symm h.1, ih h.2]

theorem map_fst_omSet_of_mem (l : List (K × V)) (k : K) (v : V)
    (h : k ∈ l.map Prod.fst) : (omSet l k v).map Prod.fst = l.map Prod.fst := by
  induction l with
  | nil => simp at h
  | cons e l ih =>
    by_cases he : e.1 = k
    · simp [omSet, he]
    · simp only [List.map_cons, List.mem_cons] at h
      rcases h with h | h
      · exact absurd h.symm he
      · simp [omSet, he, ih h]

theorem map_fst_omSet_of_not_mem (l : List (K × V)) (k : K) (v : V)
    (h : k ∉ l.map Prod.fst) :
    (omSet l k v).map Prod.fst = l.map Prod.fst ++ [k] := by
  induction l with
  | nil => simp [omSet]
  | cons e l ih =>
    simp only [List.map_cons, List.mem_cons] at h
    push_neg at h
    simp [omSet, Ne.symm h.1, ih h.2]

theorem omErase_sublist (l : List (K × V)) (k : K) : (omErase l k).Sublist l := by
  induction l with
  | nil => simp [omErase]
  | cons e l ih =>
    by_cases h : e.1 = k
    · simpa [omErase, h] using ih.cons e
    · simpa [omErase, h] using ih.cons₂ e

theorem length_omErase_le (l : List (K × V)) (k : K) :
    (omErase l k).length ≤ l.length :=
  (omErase_sublist l k).length_le

theorem mem_map_fst_omErase (l : List (K × V)) (k a : K) :
    a ∈ (omErase l k).map Prod.fst ↔ a ∈ l.map Prod.fst ∧ a ≠ k := by
  induction l with
  | nil => simp [omErase]
  | cons e l ih =>
    by_cases h : e.1 = k
    · subst h
      rw [show omErase (e :: l) e.1 = omErase l e.1 from by simp [omErase]]
      rw [ih]
      simp only [List.map_cons, List.mem_cons]
      constructor
      · rintro ⟨ha, hne⟩
        exact ⟨Or.inr ha, hne⟩
      · rintro ⟨ha | ha, hne⟩
        · exact absurd ha hne
        · exact ⟨ha, hne⟩
    · rw [show omErase (e :: l) k = e :: omErase l k from by simp [omErase, h]]
      simp only [List.map_cons, List.mem_cons, ih]
      constructor
      · rintro (ha | ⟨ha, hne⟩)
        · refine ⟨Or.inl ha, ?_⟩
          intro hak
          exact h (ha.symm.trans hak)
        · exact ⟨Or.inr ha, hne⟩
      · rintro ⟨ha | ha, hne⟩
        · exact Or.inl ha
        · exact Or.inr ⟨ha, hne⟩

theorem omErase_of_not_mem (l : List (K × V)) (k : K)
    (h : k ∉ l.map Prod.fst) : omErase l k = l := by
  induction l with
  | nil => simp [omErase]
  | cons e l ih =>
    simp only [List.map_cons, List.mem_cons] at h
    push_neg at h
    simp [omErase, Ne.symm h.1, ih h.2]

theorem nodup_omErase (l : List (K × V)) (k : K)
    (h : (l.map Prod.fst).Nodup) : ((omErase l k).map Prod.fst).Nodup :=
  ((omErase_sublist l k).map Prod.fst).nodup h

theorem omErase_cons_of_nodup (e : K × V) (l : List (K × V))
    (h : ((e :: l).map Prod.fst).Nodup) : omErase (e :: l) e.1 = l := by
  simp only [List.map_cons, List.nodup_cons] at h
  simp [omErase, omErase_of_not_mem l e.1 h.1]

theorem omGet_omErase_ne (l : List (K × V)) (k a : K) (h : a ≠ k) :
    omGet (omErase l k) a = omGet l a := by
  induction l with
  | nil => simp [omErase]
  | cons e l ih =>
    by_cases he : e.1 = k
    · subst he
      simp [omErase, omGet, Ne.symm h, ih]
    · simp [omErase, omGet, he, ih]

theorem omGet_append_single_ne (l : List (K × V)) (k a : K) (v : V)
    (h : a ≠ k) : omGet (l ++ [(k, v)]) a = omGet l a := by
  induction l with
  | nil => simp [omGet, Ne.symm h]
  | cons e l ih =>
    by_cases he : e.1 = a <;> simp [omGet, he, ih]

theorem omGet_append_single_self (l : List (K × V)) (k : K) (v : V)
    (h : k ∉ l.map Prod.fst) : omGet (l ++ [(k, v)]) k = some v := by
  induction l with
  | nil => simp [omGet]
  | cons e l ih =>
    simp only [List.map_cons, List.mem_cons] at h
    push_neg at h
    simp [omGet, Ne.symm h.1, ih h.2]

theorem omToTail_of_not_mem (l : List (K × V)) (k : K)
    (h : k ∉ l.map Prod.fst) : omToTail l k = l := by
  simp [omToTail, (omGet_eq_none_iff l k).2 h]

theorem mem_map_fst_omToTail (l : List (K × V)) (k a : K) :
    a ∈ (omToTail l k).map Prod.fst ↔ a ∈ l.map Prod.fst := by
  unfold omToTail
  cases hg : omGet l k with
  | none => rfl
  | some v =>
    have hk : k ∈ l.map Prod.fst := by
      rw [← omGet_isSome_iff, hg]
      rfl
    by_cases ha : a = k
    · subst ha
      simp [hk]
    · simp only [List.map_append, List.map_cons, List.map_nil, List.mem_append,
        List.mem_singleton]
      rw [mem_map_fst_omErase]
      constructor
      · rintro (⟨ha2, _⟩ | ha2)
        · exact ha2
        · exact absurd ha2 ha
      · intro ha2
        exact Or.inl ⟨ha2, ha⟩

theorem nodup_omToTail (l : List (K × V)) (k : K)
    (h : (l.map Prod.fst).Nodup) : ((omToTail l k).map Prod.fst).Nodup := by
  unfold omToTail
  cases hg : omGet l k with
  | none => exact h
  | some v =>
    simp only [List.map_append, List.map_cons, List.map_nil]
    rw [List.nodup_append]
    refine ⟨nodup_omErase l k h, List.nodup_singleton k, ?_⟩
    intro a ha hb
    simp only [List.mem_singleton] at hb
    subst hb
    exact ((mem_map_fst_omErase l a a).1 ha).2 rfl

theorem length_omErase_of_nodup_mem (l : List (K × V)) (k : K)
    (hnd : (l.map Prod.fst).Nodup) (h : k ∈ l.map Prod.fst) :
    (omErase l k).length + 1 = l.length := by
  induction l with
  | nil => simp at h
  | cons e l ih =>
    simp only [List.map_cons, List.nodup_cons] at hnd
    by_cases he : e.1 = k
    · subst he
      simp [omErase, omErase_of_not_mem l e.1 hnd.1]
    · simp only [List.map_cons, List.mem_cons] at h
      rcases h with h | h
      · exact absurd h.symm he
      · simp [omErase, he, ih hnd.2 h]

theorem length_omToTail_of_nodup (l : List (K × V)) (k : K)
    (hnd : (l.map Prod.fst).Nodup) : (omToTail l k).length = l.length := by
  unfold omToTail
  cases hg : omGet l k with
  | none => rfl
  | some v =>
    have hk : k ∈ l.map Prod.fst := by
      rw [← omGet_isSome_iff, hg]
      rfl
    have hlen := length_omErase_of_nodup_mem l k hnd hk
    simp only [List.length_append, List.length_cons, List.length_nil]
    omega

theorem omGet_omToTail_ne (l : List (K × V)) (k a : K) (h : a ≠ k) :
    omGet (omToTail l k) a = omGet l a := by
  unfold omToTail
  cases hg : omGet l k with
  | none => rfl
  | some v =>
    rw [omGet_append_single_ne _ _ _ _ h, omGet_omErase_ne _ _ _ h]

theorem omGet_omToTail_self (l : List (K × V)) (k : K) :
    omGet (omToTail l k) k = omGet l k := by
  unfold omToTail
  cases hg : omGet l k with
  | none => exact hg
  | some v =>
    rw [omGet_append_single_self]
    · intro hmem
      exact ((mem_map_fst_omErase l k k).1 hmem).2 rfl

theorem omSet_of_not_mem (l : List (K × V)) (k : K) (v : V)
    (h : k ∉ l.map Prod.fst) : omSet l k v = l ++ [(k, v)] := by
  induction l with
  | nil => simp [omSet]
  | cons e l ih =>
    simp only [List.map_cons, List.mem_cons] at h
    push_neg at h
    simp [omSet, Ne.symm h.1, ih h.2]

theorem omErase_append (l1 l2 : List (K × V)) (k : K) :
    omErase (l1 ++ l2) k = omErase l1 k ++ omErase l2 k := by
  induction l1 with
  | nil => simp [omErase]
  | cons e l ih =>
    by_cases h : e.1 = k <;> simp [omErase, h, ih]

theorem length_omErase_lt_of_mem (l : List (K × V)) (k : K)
    (h : k ∈ l.map Prod.fst) : (omErase l k).length + 1 ≤ l.length := by
  induction l with
  | nil => simp at h
  | cons e l ih =>
    by_cases he : e.1 = k
    · have := length_omErase_le l k
      simp only [omErase, if_pos he, List.length_cons]
      omega
    · simp only [List.map_cons, List.mem_cons] at h
      rcases h with h | h
      · exact absurd h.symm he
      · have := ih h
        simp only [omErase, if_neg he, List.length_cons]
        omega

theorem LRUG.contains_iff (c : LRUG K V) (k : K) :
    c.Contains k = true ↔ k ∈ c.items.map Prod.fst :=
  omContains_iff_mem c.items k

theorem LRUG.contains_false_iff (c : LRUG K V) (k : K) :
    c.Contains k = false ↔ k ∉ c.items.map Prod.fst :=
  omContains_eq_false_iff c.items k

theorem LRUG.peek_eq_none_iff (c : LRUG K V) (k : K) :
    c.Peek k = none ↔ k ∉ c.items.map Prod.fst :=
  omGet_eq_none_iff c.items k

theorem LRUG.size_removeOldest (c : LRUG K V) : (c.removeOldest).size = c.size := by
  unfold LRUG.removeOldest
  cases c.items.head? <;> rfl

theorem LRUG.RemoveOldest_snd (c : LRUG K V) :
    (c.RemoveOldest).2 = c.removeOldest := by
  unfold LRUG.RemoveOldest LRUG.removeOldest
  cases c.items.head? <;> rfl

theorem LRUG.RemoveOldest_fst (c : LRUG K V) :
    (c.RemoveOldest).1 = c.items.head? := by
  unfold LRUG.RemoveOldest
  cases c.items.head? <;> rfl

theorem LRUG.removeOldest_items_sublist (c : LRUG K V) :
    (c.removeOldest).items.Sublist c.items := by
  unfold LRUG.removeOldest
  cases c.items.head? <;> simp [omErase_sublist]

theorem LRUG.removeOldest_items_of_nodup (c : LRUG K V) (h : c.NodupKeys) :
    (c.removeOldest).items = c.items.tail := by
  unfold LRUG.NodupKeys at h
  unfold LRUG.removeOldest
  cases hi : c.items with
  | nil => simpa using hi
  | cons e l =>
    rw [hi] at h
    simp [omErase_cons_of_nodup e l h]

theorem LRUG.length_removeOldest_of_ne_nil (c : LRUG K V) (h : c.items ≠ []) :
    (c.removeOldest).items.length + 1 ≤ c.items.length := by
  unfold LRUG.removeOldest
  cases hi : c.items with
  | nil => exact absurd hi h
  | cons e l =>
    have hm : e.1 ∈ (e :: l).map Prod.fst := by simp
    simpa using length_omErase_lt_of_mem (e :: l) e.1 hm

theorem LRUG.nodup_removeOldest (c : LRUG K V) (h : c.NodupKeys) :
    (c.removeOldest).NodupKeys :=
  ((c.removeOldest_items_sublist).map Prod.fst).nodup h

theorem LRUG.mem_removeOldest (c : LRUG K V) (a : K)
    (h : a ∈ (c.removeOldest).items.map Prod.fst) : a ∈ c.items.map Prod.fst :=
  ((c.removeOldest_items_sublist).map Prod.fst).mem h

/-- The three outcomes of `LRUG.Add`, by whether the key is present and
whether the cache is full.  `1 ≤ c.size` and `c.Len ≤ c.size` hold in every
cache built by `NewLRUG` and kept within the public API. -/
theorem LRUG.Add_of_mem (c : LRUG K V) (k : K) (v : V)
    (hmem : k ∈ c.items.map Prod.fst) (hle : c.Len ≤ c.size) :
    c.Add k v = (false, { c with items := omSet (omToTail c.items k) k v }) := by
  have hc : omContains c.items k = true := (omContains_iff_mem _ _).2 hmem
  have hlen2 : (omSet (omToTail c.items k) k v).length ≤ c.items.length := by
    have hmem2 : k ∈ (omToTail c.items k).map Prod.fst :=
      (mem_map_fst_omToTail _ _ _).2 hmem
    rw [length_omSet_of_mem _ _ _ hmem2]
    unfold omToTail
    cases hg : omGet c.items k with
    | none => exact le_rfl
    | some v0 =>
      have := length_omErase_lt_of_mem c.items k hmem
      simp only [List.length_append, List.length_cons, List.length_nil]
      omega
  have hev : decide (((omSet (omToTail c.items k) k v).length : Int) > c.size) = false := by
    simp only [decide_eq_false_iff_not, not_lt]
    have : ((omSet (omToTail c.items k) k v).length : Int) ≤ c.Len := by
      unfold LRUG.Len
      exact_mod_cast hlen2
    omega
  unfold LRUG.Add
  simp only [hc, if_pos, if_true, hev, Bool.false_eq_true, if_false]

theorem LRUG.Add_of_not_mem_room (c : LRUG K V) (k : K) (v : V)
    (hmem : k ∉ c.items.map Prod.fst) (hlt : c.Len < c.size) :
    c.Add k v = (false, { c with items := c.items ++ [(k, v)] }) := by
  have hc : omContains c.items k = false := (omContains_eq_false_iff _ _).2 hmem
  have hset := omSet_of_not_mem c.items k v hmem
  have hev : decide (((c.items ++ [(k, v)]).length : Int) > c.size) = false := by
    simp only [decide_eq_false_iff_not, not_lt]
    simp only [List.length_append, List.length_cons, List.length_nil]
    unfold LRUG.Len at hlt
    push_cast
    omega
  unfold LRUG.Add
  simp only [hc, Bool.false_eq_true, if_false, hset, hev]

theorem LRUG.Add_of_not_mem_full (c : LRUG K V) (k : K) (v : V)
    (hmem : k ∉ c.items.map Prod.fst) (hnd : c.NodupKeys)
    (hpos : 1 ≤ c.size) (hfull : c.Len = c.size) :
    c.Add k v = (true, { c with items := c.items.tail ++ [(k, v)] }) := by
  have hc : omContains c.items k = false := (omContains_eq_false_iff _ _).2 hmem
  have hset := omSet_of_not_mem c.items k v hmem
  unfold LRUG.NodupKeys at hnd
  have hne : c.items ≠ [] := by
    intro h0
    unfold LRUG.Len at hfull
    rw [h0] at hfull
    simp at hfull
    omega
  have hev : decide (((c.items ++ [(k, v)]).length : Int) > c.size) = true := by
    simp only [decide_eq_true_eq]
    simp only [List.length_append, List.length_cons, List.length_nil]
    unfold LRUG.Len at hfull
    push_cast
    omega
  unfold LRUG.Add
  simp only [hc, Bool.false_eq_true, if_false, hset, hev, if_true]
  cases hi : c.items with
  | nil => exact absurd hi hne
  | cons e l =>
    rw [hi] at hnd hmem
    unfold LRUG.removeOldest
    simp only [List.cons_append, List.head?_cons]
    have h1 : omErase (e :: (l ++ [(k, v)])) e.1 = omErase (l ++ [(k, v)]) e.1 := by
      simp [omErase]
    rw [h1, omErase_append]
    have hek : e.1 ≠ k := by
      intro h
      exact hmem (by simp [← h])
    simp only [List.map_cons, List.nodup_cons] at hnd
    rw [omErase_of_not_mem l e.1 hnd.1]
    rw [show omErase [(k, v)] e.1 = [(k, v)] from by simp [omErase, Ne.symm hek]]
    simp

theorem LRUG.length_Add_le (c : LRUG K V) (k : K) (v : V)
    (hle : c.Len ≤ c.size) : ((c.Add k v).2).Len ≤ c.size := by
  by_cases hmem : k ∈ c.items.map Prod.fst
  · rw [LRUG.Add_of_mem c k v hmem hle]
    have hmem2 : k ∈ (omToTail c.items k).map Prod.fst :=
      (mem_map_fst_omToTail _ _ _).2 hmem
    unfold LRUG.Len at hle ⊢
    simp only
    rw [length_omSet_of_mem _ _ _ hmem2]
    calc ((omToTail c.items k).length : Int)
        ≤ c.items.length := by
          unfold omToTail
          cases hg : omGet c.items k with
          | none => exact le_rfl
          | some v0 =>
            have := length_omErase_lt_of_mem c.items k hmem
            simp only [List.length_append, List.length_cons, List.length_nil]
            push_cast
            omega
      _ ≤ c.size := hle
  · rcases lt_or_eq_of_le hle with hlt | hfull
    · rw [LRUG.Add_of_not_mem_room c k v hmem hlt]
      unfold LRUG.Len at hlt ⊢
      simp only [List.length_append, List.length_cons, List.length_nil]
      push_cast
      omega
    · unfold LRUG.Add
      have hc : omContains c.items k = false := (omContains_eq_false_iff _ _).2 hmem
      simp only [hc, Bool.false_eq_true, if_false]
      rw [omSet_of_not_mem c.items k v hmem]
      by_cases hev : ((((c.items ++ [(k, v)]).length) : Int) > c.size)
      · simp only [decide_eq_true hev, if_true]
        have hne : c.items ++ [(k, v)] ≠ [] := by simp
        have hlt2 := LRUG.length_removeOldest_of_ne_nil
          (c := { c with items := c.items ++ [(k, v)] }) (by simp)
        unfold LRUG.Len at hfull ⊢
        simp only at hlt2 ⊢
        simp only [List.length_append, List.length_cons, List.length_nil] at hlt2 hfull ⊢
        omega
      · simp only [decide_eq_false hev, Bool.false_eq_true, if_false]
        unfold LRUG.Len
        simp only
        omega

theorem LRUG.size_Add (c : LRUG K V) (k : K) (v : V) :
    ((c.Add k v).2).size = c.size := by
  unfold LRUG.Add
  dsimp only
  by_cases hcont : omContains c.items k = true
  · rw [if_pos hcont]
    split
    · exact LRUG.size_removeOldest _
    · rfl
  · rw [if_neg hcont]
    split
    · exact LRUG.size_removeOldest _
    · rfl

theorem LRUG.mem_Add (c : LRUG K V) (k a : K) (v : V)
    (h : a ∈ ((c.Add k v).2).items.map Prod.fst) :
    a ∈ c.items.map Prod.fst ∨ a = k := by
  have hsub : ∀ l : List (K × V), a ∈ (omSet l k v).map Prod.fst →
      a ∈ l.map Prod.fst ∨ a = k := by
    intro l hl
    by_cases hm : k ∈ l.map Prod.fst
    · rw [map_fst_omSet_of_mem l k v hm] at hl
      exact Or.inl hl
    · rw [map_fst_omSet_of_not_mem l k v hm] at hl
      rcases List.mem_append.1 hl with h1 | h1
      · exact Or.inl h1
      · exact Or.inr (by simpa using h1)
  unfold LRUG.Add at h
  dsimp only at h
  by_cases hcont : omContains c.items k = true
  · rw [if_pos hcont] at h
    split at h
    · rcases hsub _ (LRUG.mem_removeOldest _ a h) with h3 | h3
      · exact Or.inl ((mem_map_fst_omToTail _ _ _).1 h3)
      · exact Or.inr h3
    · rcases hsub _ h with h3 | h3
      · exact Or.inl ((mem_map_fst_omToTail _ _ _).1 h3)
      · exact Or.inr h3
  · rw [if_neg hcont] at h
    split at h
    · exact hsub _ (LRUG.mem_removeOldest _ a h)
    · exact hsub _ h

theorem LRUG.nodup_Add (c : LRUG K V) (k : K) (v : V) (hnd : c.NodupKeys) :
    ((c.Add k v).2).NodupKeys := by
  have hafter : ∀ l : List (K × V), (l.map Prod.fst).Nodup →
      ((omSet l k v).map Prod.fst).Nodup := by
    intro l hl
    by_cases hm : k ∈ l.map Prod.fst
    · rw [map_fst_omSet_of_mem l k v hm]
      exact hl
    · rw [map_fst_omSet_of_not_mem l k v hm]
      rw [List.nodup_append]
      refine ⟨hl, List.nodup_singleton k, ?_⟩
      intro a ha hb
      simp only [List.mem_singleton] at hb
      subst hb
      exact hm ha
  unfold LRUG.NodupKeys at hnd
  unfold LRUG.Add
  dsimp only
  by_cases hcont : omContains c.items k = true
  · rw [if_pos hcont]
    split
    · exact LRUG.nodup_removeOldest _ (hafter _ (nodup_omToTail _ _ hnd))
    · exact hafter _ (nodup_omToTail _ _ hnd)
  · rw [if_neg hcont]
    split
    · exact LRUG.nodup_removeOldest _ (hafter _ hnd)
    · exact hafter _ hnd

theorem LRUG.peek_Add_self (c : LRUG K V) (k : K) (v : V)
    (hpos : 1 ≤ c.size) (hle : c.Len ≤ c.size) :
    ((c.Add k v).2).Peek k = some v := by
  by_cases hmem : k ∈ c.items.map Prod.fst
  · rw [LRUG.Add_of_mem c k v hmem hle]
    exact omGet_omSet_self _ _ _
  · rcases lt_or_eq_of_le hle with hlt | hfull
    · rw [LRUG.Add_of_not_mem_room c k v hmem hlt]
      unfold LRUG.Peek
      exact omGet_append_single_self _ _ _ hmem
    · unfold LRUG.Add
      have hc : omContains c.items k = false := (omContains_eq_false_iff _ _).2 hmem
      simp only [hc, Bool.false_eq_true, if_false]
      rw [omSet_of_not_mem c.items k v hmem]
      split
      · unfold LRUG.removeOldest
        cases hi : c.items with
        | nil =>
          unfold LRUG.Len at hfull
          rw [hi] at hfull
          simp at hfull
          omega
        | cons e l =>
          rw [hi] at hmem
          simp only [List.cons_append, List.head?_cons]
          have hek : e.1 ≠ k := by
            intro h
            exact hmem (by simp [← h])
          have h1 : omErase (e :: (l ++ [(k, v)])) e.1
              = omErase l e.1 ++ [(k, v)] := by
            rw [show omErase (e :: (l ++ [(k, v)])) e.1
                = omErase (l ++ [(k, v)]) e.1 from by simp [omErase]]
            rw [omErase_append]
            rw [show omErase [(k, v)] e.1 = [(k, v)] from by
              simp [omErase, Ne.symm hek]]
          unfold LRUG.Peek
          dsimp only
          rw [h1]
          apply omGet_append_single_self
          intro hmem2
          have := (mem_map_fst_omErase l e.1 k).1 hmem2
          exact hmem (by simp [this.1])
      · unfold LRUG.Peek
        exact omGet_append_single_self _ _ _ hmem

theorem LRUG.Add_fst_iff (c : LRUG K V) (k : K) (v : V) (hle : c.Len ≤ c.size) :
    (c.Add k v).1 = true ↔ (k ∉ c.items.map Prod.fst ∧ c.Len = c.size) := by
  by_cases hmem : k ∈ c.items.map Prod.fst
  · rw [LRUG.Add_of_mem c k v hmem hle]
    simp [hmem]
  · rcases lt_or_eq_of_le hle with hlt | hfull
    · rw [LRUG.Add_of_not_mem_room c k v hmem hlt]
      simp only [Bool.false_eq_true, false_iff, not_and]
      intro _
      omega
    · unfold LRUG.Add
      have hc : omContains c.items k = false := (omContains_eq_false_iff _ _).2 hmem
      simp only [hc, Bool.false_eq_true, if_false]
      rw [omSet_of_not_mem c.items k v hmem]
      have hev : decide (((c.items ++ [(k, v)]).length : Int) > c.size) = true := by
        simp only [decide_eq_true_eq, List.length_append, List.length_cons,
          List.length_nil]
        unfold LRUG.Len at hfull
        push_cast
        omega
      rw [hev]
      exact iff_of_true rfl ⟨hmem, hfull⟩

theorem LRUG.mem_Add_no_evict (c : LRUG K V) (k a : K) (v : V)
    (hle : c.Len ≤ c.size) (hnoev : (c.Add k v).1 = false)
    (ha : a ∈ c.items.map Prod.fst) : a ∈ ((c.Add k v).2).items.map Prod.fst := by
  by_cases hmem : k ∈ c.items.map Prod.fst
  · rw [LRUG.Add_of_mem c k v hmem hle]
    dsimp only
    rw [map_fst_omSet_of_mem _ _ _ ((mem_map_fst_omToTail _ _ _).2 hmem),
      mem_map_fst_omToTail]
    exact ha
  · rcases lt_or_eq_of_le hle with hlt | hfull
    · rw [LRUG.Add_of_not_mem_room c k v hmem hlt]
      simp [ha]
    · have htrue := (LRUG.Add_fst_iff c k v hle).2 ⟨hmem, hfull⟩
      rw [htrue] at hnoev
      exact Bool.noConfusion hnoev

theorem LRUG.size_Remove (c : LRUG K V) (k : K) : ((c.Remove k).2).size = c.size := by
  unfold LRUG.Remove
  split <;> rfl

theorem LRUG.mem_Remove_iff (c : LRUG K V) (k a : K) :
    a ∈ ((c.Remove k).2).items.map Prod.fst ↔
      a ∈ c.items.map Prod.fst ∧ a ≠ k := by
  unfold LRUG.Remove
  by_cases hc : omContains c.items k = true
  · rw [if_pos hc]
    exact mem_map_fst_omErase c.items k a
  · rw [if_neg hc]
    have hk : k ∉ c.items.map Prod.fst := fun hm => hc ((omContains_iff_mem _ _).2 hm)
    dsimp only
    constructor
    · intro ha
      exact ⟨ha, fun hak => hk (hak ▸ ha)⟩
    · exact fun ha => ha.1

theorem LRUG.nodup_Remove (c : LRUG K V) (k : K) (hnd : c.NodupKeys) :
    ((c.Remove k).2).NodupKeys := by
  unfold LRUG.NodupKeys at hnd ⊢
  unfold LRUG.Remove
  split
  · exact nodup_omErase _ _ hnd
  · exact hnd

theorem LRUG.length_Remove_le (c : LRUG K V) (k : K) :
    ((c.Remove k).2).items.length ≤ c.items.length := by
  unfold LRUG.Remove
  split
  · exact length_omErase_le _ _
  · exact le_rfl

theorem LRUG.length_Remove_of_mem (c : LRUG K V) (k : K)
    (hmem : k ∈ c.items.map Prod.fst) :
    ((c.Remove k).2).items.length + 1 ≤ c.items.length := by
  unfold LRUG.Remove
  rw [if_pos ((omContains_iff_mem _ _).2 hmem)]
  exact length_omErase_lt_of_mem _ _ hmem

theorem LRUG.size_Get (c : LRUG K V) (k : K) : ((c.Get k).2).size = c.size := by
  unfold LRUG.Get
  cases c.Peek k <;> rfl

theorem LRUG.Get_of_peek_none (c : LRUG K V) (k : K) (h : c.Peek k = none) :
    c.Get k = (none, c) := by
  unfold LRUG.Get
  rw [h]

theorem LRUG.Get_of_peek_some (c : LRUG K V) (k : K) (v : V)
    (h : c.Peek k = some v) :
    c.Get k = (some v, { c with items := omToTail c.items k }) := by
  unfold LRUG.Get
  rw [h]

theorem LRUG.size_removeOldestN (c : LRUG K V) (n : Nat) :
    (c.removeOldestN n).size = c.size := by
  induction n generalizing c with
  | zero => rfl
  | succ n ih =>
    unfold LRUG.removeOldestN
    rw [ih]
    exact LRUG.size_removeOldest c

theorem LRUG.removeOldestN_items_of_nodup (c : LRUG K V) (n : Nat)
    (hnd : c.NodupKeys) : (c.removeOldestN n).items = c.items.drop n := by
  induction n generalizing c with
  | zero => rfl
  | succ n ih =>
    unfold LRUG.removeOldestN
    have hnd2 : (c.removeOldest).NodupKeys := LRUG.nodup_removeOldest c hnd
    rw [ih _ hnd2, LRUG.removeOldest_items_of_nodup c hnd]
    rw [← List.drop_one, List.drop_drop]
    congr 1
    omega

theorem LRUG.RemoveOldest_of_head (c : LRUG K V) (e : K × V)
    (h : c.items.head? = some e) :
    c.RemoveOldest = (some e, { c with items := omErase c.items e.1 }) := by
  unfold LRUG.RemoveOldest
  rw [h]

omit [DecidableEq K] in
theorem LRUG.head_mem_keys (c : LRUG K V) (e : K × V)
    (h : c.items.head? = some e) : e.1 ∈ c.items.map Prod.fst := by
  cases hi : c.items with
  | nil => rw [hi] at h; exact Option.noConfusion h
  | cons e0 l =>
    rw [hi] at h
    simp only [List.head?_cons, Option.some.injEq] at h
    subst h
    simp

omit [DecidableEq K] in
theorem LRUG.exists_head_of_len_pos (c : LRUG K V) (h : 0 < c.Len) :
    ∃ e, c.items.head? = some e := by
  cases hi : c.items with
  | nil =>
    unfold LRUG.Len at h
    rw [hi] at h
    simp at h
  | cons e l => exact ⟨e, rfl⟩

theorem TwoQueueCacheG.ensureSpace_of_room [Inhabited K] [Inhabited V]
    (c : TwoQueueCacheG K V) (b : Bool)
    (h : c.recent.Len + c.frequent.Len < c.size) : c.ensureSpace b = c := by
  unfold TwoQueueCacheG.ensureSpace
  rw [if_pos h]

theorem TwoQueueCacheG.ensureSpace_of_full_guard [Inhabited K] [Inhabited V]
    (c : TwoQueueCacheG K V) (b : Bool)
    (hfull : ¬c.recent.Len + c.frequent.Len < c.size)
    (hg : c.recent.Len > 0 ∧ (c.recent.Len > c.recentSize ∨
      (c.recent.Len = c.recentSize ∧ b = false))) :
    c.ensureSpace b =
      { c with recent := (c.recent.RemoveOldest).2,
               recentEvict := (c.recentEvict.Add
                 (((c.recent.RemoveOldest).1.map Prod.fst).getD default) default).2 } := by
  unfold TwoQueueCacheG.ensureSpace
  rw [if_neg hfull, if_pos hg]

theorem TwoQueueCacheG.ensureSpace_of_full_noguard [Inhabited K] [Inhabited V]
    (c : TwoQueueCacheG K V) (b : Bool)
    (hfull : ¬c.recent.Len + c.frequent.Len < c.size)
    (hg : ¬(c.recent.Len > 0 ∧ (c.recent.Len > c.recentSize ∨
      (c.recent.Len = c.recentSize ∧ b = false)))) :
    c.ensureSpace b = { c with frequent := c.frequent.removeOldest } := by
  unfold TwoQueueCacheG.ensureSpace
  rw [if_neg hfull, if_neg hg]

theorem TwoQWF_ensureSpace [Inhabited K] [Inhabited V] (c : TwoQueueCacheG K V)
    (b : Bool) (h : TwoQWF c) : TwoQWF (c.ensureSpace b) := by
  by_cases hroom : c.recent.Len + c.frequent.Len < c.size
  · rw [c.ensureSpace_of_room b hroom]
    exact h
  by_cases hg : c.recent.Len > 0 ∧ (c.recent.Len > c.recentSize ∨
      (c.recent.Len = c.recentSize ∧ b = false))
  · obtain ⟨e, he⟩ := c.recent.exists_head_of_len_pos hg.1
    have hstate : c.ensureSpace b =
        { c with recent := { c.recent with items := omErase c.recent.items e.1 },
                 recentEvict := (c.recentEvict.Add e.1 default).2 } := by
      rw [c.ensureSpace_of_full_guard b hroom hg, LRUG.RemoveOldest_of_head _ e he]
      rfl
    have hmemhead := c.recent.head_mem_keys e he
    rw [hstate]
    refine ⟨h.size_pos, h.rsize, h.fsize, ?_, ?_, h.fnodup, ?_, ?_, h.flen, ?_,
      ?_, ?_, ?_⟩
    · show 1 ≤ (c.recentEvict.Add e.1 default).2.size
      rw [LRUG.size_Add]
      exact h.gsize
    · exact nodup_omErase _ _ h.rnodup
    · exact LRUG.nodup_Add _ _ _ h.gnodup
    · show ((omErase c.recent.items e.1).length : Int) ≤ c.recent.size
      have h1 := length_omErase_le c.recent.items e.1
      have h2 := h.rlen
      unfold LRUG.Len at h2
      omega
    · show (c.recentEvict.Add e.1 default).2.Len ≤ (c.recentEvict.Add e.1 default).2.size
      rw [LRUG.size_Add]
      exact LRUG.length_Add_le _ _ _ h.glen
    · intro a har haf
      exact h.disj_rf a ((mem_map_fst_omErase _ _ _).1 har).1 haf
    · intro a har hag
      obtain ⟨har2, hane⟩ := (mem_map_fst_omErase _ _ _).1 har
      rcases LRUG.mem_Add _ _ a _ hag with h2 | h2
      · exact h.disj_rg a har2 h2
      · exact hane h2
    · intro a haf hag
      rcases LRUG.mem_Add _ _ a _ hag with h2 | h2
      · exact h.disj_fg a haf h2
      · exact h.disj_rf a (h2 ▸ hmemhead) haf
  · rw [c.ensureSpace_of_full_noguard b hroom hg]
    refine ⟨h.size_pos, h.rsize, ?_, h.gsize, h.rnodup, ?_, h.gnodup, h.rlen,
      ?_, h.glen, ?_, h.disj_rg, ?_⟩
    · show (c.frequent.removeOldest).size = c.size
      rw [LRUG.size_removeOldest]
      exact h.fsize
    · exact LRUG.nodup_removeOldest _ h.fnodup
    · show ((c.frequent.removeOldest).items.length : Int) ≤ (c.frequent.removeOldest).size
      rw [LRUG.size_removeOldest]
      have h1 := (c.frequent.removeOldest_items_sublist).length_le
      have h2 := h.flen
      unfold LRUG.Len at h2
      omega
    · intro a har haf
      exact h.disj_rf a har (LRUG.mem_removeOldest _ a haf)
    · intro a haf hag
      exact h.disj_fg a (LRUG.mem_removeOldest _ a haf) hag

theorem LRUG.mem_of_peek_some (c : LRUG K V) (k : K) (v : V)
    (h : c.Peek k = some v) : k ∈ c.items.map Prod.fst :=
  (omGet_isSome_iff _ _).1 (by rw [show omGet c.items k = some v from h]; rfl)

theorem LRUG.mem_of_contains (c : LRUG K V) (k : K)
    (h : c.Contains k = true) : k ∈ c.items.map Prod.fst :=
  (LRUG.contains_iff c k).1 h

theorem LRUG.not_mem_of_contains_false (c : LRUG K V) (k : K)
    (h : ¬c.Contains k = true) : k ∉ c.items.map Prod.fst := by
  intro hm
  exact h ((LRUG.contains_iff c k).2 hm)

theorem TwoQueueCacheG.ensureSpace_size [Inhabited K] [Inhabited V]
    (c : TwoQueueCacheG K V) (b : Bool) :
    (c.ensureSpace b).size = c.size ∧ (c.ensureSpace b).recentSize = c.recentSize := by
  by_cases hroom : c.recent.Len + c.frequent.Len < c.size
  · rw [c.ensureSpace_of_room b hroom]
    exact ⟨rfl, rfl⟩
  by_cases hg : c.recent.Len > 0 ∧ (c.recent.Len > c.recentSize ∨
      (c.recent.Len = c.recentSize ∧ b = false))
  · rw [c.ensureSpace_of_full_guard b hroom hg]
    exact ⟨rfl, rfl⟩
  · rw [c.ensureSpace_of_full_noguard b hroom hg]
    exact ⟨rfl, rfl⟩

theorem TwoQueueCacheG.ensureSpace_recent_subset [Inhabited K] [Inhabited V]
    (c : TwoQueueCacheG K V) (b : Bool) (a : K)
    (h : a ∈ (c.ensureSpace b).recent.items.map Prod.fst) :
    a ∈ c.recent.items.map Prod.fst := by
  by_cases hroom : c.recent.Len + c.frequent.Len < c.size
  · rwa [c.ensureSpace_of_room b hroom] at h
  by_cases hg : c.recent.Len > 0 ∧ (c.recent.Len > c.recentSize ∨
      (c.recent.Len = c.recentSize ∧ b = false))
  · obtain ⟨e, he⟩ := c.recent.exists_head_of_len_pos hg.1
    rw [c.ensureSpace_of_full_guard b hroom hg,
      LRUG.RemoveOldest_of_head _ e he] at h
    exact ((mem_map_fst_omErase _ _ _).1 h).1
  · rwa [c.ensureSpace_of_full_noguard b hroom hg] at h

theorem TwoQueueCacheG.ensureSpace_frequent_subset [Inhabited K] [Inhabited V]
    (c : TwoQueueCacheG K V) (b : Bool) (a : K)
    (h : a ∈ (c.ensureSpace b).frequent.items.map Prod.fst) :
    a ∈ c.frequent.items.map Prod.fst := by
  by_cases hroom : c.recent.Len + c.frequent.Len < c.size
  · rwa [c.ensureSpace_of_room b hroom] at h
  by_cases hg : c.recent.Len > 0 ∧ (c.recent.Len > c.recentSize ∨
      (c.recent.Len = c.recentSize ∧ b = false))
  · rwa [c.ensureSpace_of_full_guard b hroom hg] at h
  · rw [c.ensureSpace_of_full_noguard b hroom hg] at h
    exact LRUG.mem_removeOldest _ a h

theorem TwoQueueCacheG.ensureSpace_ghost_mem [Inhabited K] [Inhabited V]
    (c : TwoQueueCacheG K V) (b : Bool) (a : K)
    (h : a ∈ (c.ensureSpace b).recentEvict.items.map Prod.fst) :
    a ∈ c.recentEvict.items.map Prod.fst ∨ a ∈ c.recent.items.map Prod.fst := by
  by_cases hroom : c.recent.Len + c.frequent.Len < c.size
  · rw [c.ensureSpace_of_room b hroom] at h
    exact Or.inl h
  by_cases hg : c.recent.Len > 0 ∧ (c.recent.Len > c.recentSize ∨
      (c.recent.Len = c.recentSize ∧ b = false))
  · obtain ⟨e, he⟩ := c.recent.exists_head_of_len_pos hg.1
    rw [c.ensureSpace_of_full_guard b hroom hg,
      LRUG.RemoveOldest_of_head _ e he] at h
    rcases LRUG.mem_Add _ _ a _ h with h2 | h2
    · exact Or.inl h2
    · exact Or.inr (h2 ▸ c.recent.head_mem_keys e he)
  · rw [c.ensureSpace_of_full_noguard b hroom hg] at h
    exact Or.inl h

theorem TwoQWF_Get (c : TwoQueueCacheG K V) (k : K) (h : TwoQWF c) :
    TwoQWF ((c.Get k).2) := by
  unfold TwoQueueCacheG.Get
  cases hfp : c.frequent.Peek k with
  | some v =>
    rw [LRUG.Get_of_peek_some _ _ _ hfp]
    dsimp only
    refine ⟨h.size_pos, h.rsize, ?_, h.gsize, h.rnodup, ?_, h.gnodup, h.rlen,
      ?_, h.glen, ?_, h.disj_rg, ?_⟩
    · exact h.fsize
    · exact nodup_omToTail _ _ h.fnodup
    · show ((omToTail c.frequent.items k).length : Int) ≤ c.frequent.size
      rw [length_omToTail_of_nodup _ _ h.fnodup]
      exact h.flen
    · intro a har haf
      exact h.disj_rf a har ((mem_map_fst_omToTail _ _ _).1 haf)
    · intro a haf hag
      exact h.disj_fg a ((mem_map_fst_omToTail _ _ _).1 haf) hag
  | none =>
    rw [LRUG.Get_of_peek_none _ _ hfp]
    dsimp only
    cases hrp : c.recent.Peek k with
    | some v =>
      dsimp only
      have hkr : k ∈ c.recent.items.map Prod.fst := LRUG.mem_of_peek_some _ _ _ hrp
      refine ⟨h.size_pos, ?_, ?_, h.gsize, ?_, ?_, h.gnodup, ?_, ?_, h.glen,
        ?_, ?_, ?_⟩
      · show ((c.recent.Remove k).2).size = c.size
        rw [LRUG.size_Remove]
        exact h.rsize
      · show ((c.frequent.Add k v).2).size = c.size
        rw [LRUG.size_Add]
        exact h.fsize
      · exact LRUG.nodup_Remove _ _ h.rnodup
      · exact LRUG.nodup_Add _ _ _ h.fnodup
      · show ((c.recent.Remove k).2).Len ≤ ((c.recent.Remove k).2).size
        rw [LRUG.size_Remove]
        have h1 := LRUG.length_Remove_le c.recent k
        have h2 := h.rlen
        unfold LRUG.Len at h2 ⊢
        omega
      · show ((c.frequent.Add k v).2).Len ≤ ((c.frequent.Add k v).2).size
        rw [LRUG.size_Add]
        exact LRUG.length_Add_le _ _ _ h.flen
      · intro a har haf
        obtain ⟨har2, hane⟩ := (LRUG.mem_Remove_iff c.recent k a).1 har
        rcases LRUG.mem_Add _ _ a _ haf with h2 | h2
        · exact h.disj_rf a har2 h2
        · exact hane h2
      · intro a har hag
        exact h.disj_rg a ((LRUG.mem_Remove_iff c.recent k a).1 har).1 hag
      · intro a haf hag
        rcases LRUG.mem_Add _ _ a _ haf with h2 | h2
        · exact h.disj_fg a h2 hag
        · exact h.disj_rg a (h2 ▸ hkr) (h2 ▸ hag)
    | none => exact h

theorem TwoQWF_Add [Inhabited K] [Inhabited V] (c : TwoQueueCacheG K V)
    (k : K) (v : V) (h : TwoQWF c) : TwoQWF (c.Add k v) := by
  unfold TwoQueueCacheG.Add
  by_cases hf : c.frequent.Contains k = true
  · rw [if_pos hf]
    have hkf := LRUG.mem_of_contains _ _ hf
    refine ⟨h.size_pos, h.rsize, ?_, h.gsize, h.rnodup, ?_, h.gnodup, h.rlen,
      ?_, h.glen, ?_, h.disj_rg, ?_⟩
    · show ((c.frequent.Add k v).2).size = c.size
      rw [LRUG.size_Add]
      exact h.fsize
    · exact LRUG.nodup_Add _ _ _ h.fnodup
    · show ((c.frequent.Add k v).2).Len ≤ ((c.frequent.Add k v).2).size
      rw [LRUG.size_Add]
      exact LRUG.length_Add_le _ _ _ h.flen
    · intro a har haf
      rcases LRUG.mem_Add _ _ a _ haf with h2 | h2
      · exact h.disj_rf a har h2
      · rw [h2] at har
        exact h.disj_rf k har hkf
    · intro a haf hag
      rcases LRUG.mem_Add _ _ a _ haf with h2 | h2
      · exact h.disj_fg a h2 hag
      · rw [h2] at hag
        exact h.disj_fg k hkf hag
  rw [if_neg hf]
  by_cases hr : c.recent.Contains k = true
  · rw [if_pos hr]
    have hkr := LRUG.mem_of_contains _ _ hr
    refine ⟨h.size_pos, ?_, ?_, h.gsize, ?_, ?_, h.gnodup, ?_, ?_, h.glen,
      ?_, ?_, ?_⟩
    · show ((c.recent.Remove k).2).size = c.size
      rw [LRUG.size_Remove]
      exact h.rsize
    · show ((c.frequent.Add k v).2).size = c.size
      rw [LRUG.size_Add]
      exact h.fsize
    · exact LRUG.nodup_Remove _ _ h.rnodup
    · exact LRUG.nodup_Add _ _ _ h.fnodup
    · show ((c.recent.Remove k).2).Len ≤ ((c.recent.Remove k).2).size
      rw [LRUG.size_Remove]
      have h1 := LRUG.length_Remove_le c.recent k
      have h2 := h.rlen
      unfold LRUG.Len at h2 ⊢
      omega
    · show ((c.frequent.Add k v).2).Len ≤ ((c.frequent.Add k v).2).size
      rw [LRUG.size_Add]
      exact LRUG.length_Add_le _ _ _ h.flen
    · intro a har haf
      obtain ⟨har2, hane⟩ := (LRUG.mem_Remove_iff c.recent k a).1 har
      rcases LRUG.mem_Add _ _ a _ haf with h2 | h2
      · exact h.disj_rf a har2 h2
      · exact hane h2
    · intro a har hag
      exact h.disj_rg a ((LRUG.mem_Remove_iff c.recent k a).1 har).1 hag
    · intro a haf hag
      rcases LRUG.mem_Add _ _ a _ haf with h2 | h2
      · exact h.disj_fg a h2 hag
      · exact h.disj_rg a (h2 ▸ hkr) (h2 ▸ hag)
  rw [if_neg hr]
  by_cases hgst : c.recentEvict.Contains k = true
  · rw [if_pos hgst]
    have h1 : TwoQWF (c.ensureSpace true) := TwoQWF_ensureSpace c true h
    have hkg := LRUG.mem_of_contains _ _ hgst
    have hknr : k ∉ c.recent.items.map Prod.fst := LRUG.not_mem_of_contains_false _ _ hr
    dsimp only
    refine ⟨h1.size_pos, h1.rsize, ?_, ?_, h1.rnodup, ?_, ?_, h1.rlen, ?_,
      ?_, ?_, ?_, ?_⟩
    · show (((c.ensureSpace true).frequent.Add k v).2).size = _
      rw [LRUG.size_Add]
      exact h1.fsize
    · show 1 ≤ (((c.ensureSpace true).recentEvict.Remove k).2).size
      rw [LRUG.size_Remove]
      exact h1.gsize
    · exact LRUG.nodup_Add _ _ _ h1.fnodup
    · exact LRUG.nodup_Remove _ _ h1.gnodup
    · show (((c.ensureSpace true).frequent.Add k v).2).Len ≤
        (((c.ensureSpace true).frequent.Add k v).2).size
      rw [LRUG.size_Add]
      exact LRUG.length_Add_le _ _ _ h1.flen
    · show (((c.ensureSpace true).recentEvict.Remove k).2).Len ≤
        (((c.ensureSpace true).recentEvict.Remove k).2).size
      rw [LRUG.size_Remove]
      have ha := LRUG.length_Remove_le (c.ensureSpace true).recentEvict k
      have hb := h1.glen
      unfold LRUG.Len at hb ⊢
      omega
    · intro a har haf
      rcases LRUG.mem_Add _ _ a _ haf with h2 | h2
      · exact h1.disj_rf a har h2
      · exact hknr (h2 ▸ c.ensureSpace_recent_subset true a har)
    · intro a har hag
      exact h1.disj_rg a har ((LRUG.mem_Remove_iff _ k a).1 hag).1
    · intro a haf hag
      obtain ⟨hag2, hane⟩ := (LRUG.mem_Remove_iff _ k a).1 hag
      rcases LRUG.mem_Add _ _ a _ haf with h2 | h2
      · exact h1.disj_fg a h2 hag2
      · exact hane h2
  · rw [if_neg hgst]
    have h1 : TwoQWF (c.ensureSpace false) := TwoQWF_ensureSpace c false h
    have hknf : k ∉ c.frequent.items.map Prod.fst :=
      LRUG.not_mem_of_contains_false _ _ hf
    have hknr : k ∉ c.recent.items.map Prod.fst :=
      LRUG.not_mem_of_contains_false _ _ hr
    have hkng : k ∉ c.recentEvict.items.map Prod.fst :=
      LRUG.not_mem_of_contains_false _ _ hgst
    dsimp only
    refine ⟨h1.size_pos, ?_, h1.fsize, h1.gsize, ?_, h1.fnodup, h1.gnodup,
      ?_, h1.flen, h1.glen, ?_, ?_, h1.disj_fg⟩
    · show (((c.ensureSpace false).recent.Add k v).2).size = _
      rw [LRUG.size_Add]
      exact h1.rsize
    · exact LRUG.nodup_Add _ _ _ h1.rnodup
    · show (((c.ensureSpace false).recent.Add k v).2).Len ≤
        (((c.ensureSpace false).recent.Add k v).2).size
      rw [LRUG.size_Add]
      exact LRUG.length_Add_le _ _ _ h1.rlen
    · intro a har haf
      rcases LRUG.mem_Add _ _ a _ har with h2 | h2
      · exact h1.disj_rf a h2 haf
      · exact hknf (h2 ▸ c.ensureSpace_frequent_subset false a haf)
    · intro a har hag
      rcases LRUG.mem_Add _ _ a _ har with h2 | h2
      · exact h1.disj_rg a h2 hag
      · rcases c.ensureSpace_ghost_mem false a hag with h3 | h3
        · exact hkng (h2 ▸ h3)
        · exact hknr (h2 ▸ h3)

theorem TwoQWF_Remove (c : TwoQueueCacheG K V) (k : K) (h : TwoQWF c) :
    TwoQWF (c.Remove k) := by
  unfold TwoQueueCacheG.Remove
  by_cases h1 : (c.frequent.Remove k).1 = true
  · rw [if_pos h1]
    refine ⟨h.size_pos, h.rsize, ?_, h.gsize, h.rnodup, ?_, h.gnodup, h.rlen,
      ?_, h.glen, ?_, h.disj_rg, ?_⟩
    · show ((c.frequent.Remove k).2).size = c.size
      rw [LRUG.size_Remove]
      exact h.fsize
    · exact LRUG.nodup_Remove _ _ h.fnodup
    · show ((c.frequent.Remove k).2).Len ≤ ((c.frequent.Remove k).2).size
      rw [LRUG.size_Remove]
      have ha := LRUG.length_Remove_le c.frequent k
      have hb := h.flen
      unfold LRUG.Len at hb ⊢
      omega
    · intro a har haf
      exact h.disj_rf a har ((LRUG.mem_Remove_iff _ k a).1 haf).1
    · intro a haf hag
      exact h.disj_fg a ((LRUG.mem_Remove_iff _ k a).1 haf).1 hag
  rw [if_neg h1]
  by_cases h2 : (c.recent.Remove k).1 = true
  · rw [if_pos h2]
    refine ⟨h.size_pos, ?_, h.fsize, h.gsize, ?_, h.fnodup, h.gnodup, ?_,
      h.flen, h.glen, ?_, ?_, h.disj_fg⟩
    · show ((c.recent.Remove k).2).size = c.size
      rw [LRUG.size_Remove]
      exact h.rsize
    · exact LRUG.nodup_Remove _ _ h.rnodup
    · show ((c.recent.Remove k).2).Len ≤ ((c.recent.Remove k).2).size
      rw [LRUG.size_Remove]
      have ha := LRUG.length_Remove_le c.recent k
      have hb := h.rlen
      unfold LRUG.Len at hb ⊢
      omega
    · intro a har haf
      exact h.disj_rf a ((LRUG.mem_Remove_iff _ k a).1 har).1 haf
    · intro a har hag
      exact h.disj_rg a ((LRUG.mem_Remove_iff _ k a).1 har).1 hag
  rw [if_neg h2]
  by_cases h3 : (c.recentEvict.Remove k).1 = true
  · rw [if_pos h3]
    refine ⟨h.size_pos, h.rsize, h.fsize, ?_, h.rnodup, h.fnodup, ?_, h.rlen,
      h.flen, ?_, h.disj_rf, ?_, ?_⟩
    · show 1 ≤ ((c.recentEvict.Remove k).2).size
      rw [LRUG.size_Remove]
      exact h.gsize
    · exact LRUG.nodup_Remove _ _ h.gnodup
    · show ((c.recentEvict.Remove k).2).Len ≤ ((c.recentEvict.Remove k).2).size
      rw [LRUG.size_Remove]
      have ha := LRUG.length_Remove_le c.recentEvict k
      have hb := h.glen
      unfold LRUG.Len at hb ⊢
      omega
    · intro a har hag
      exact h.disj_rg a har ((LRUG.mem_Remove_iff _ k a).1 hag).1
    · intro a haf hag
      exact h.disj_fg a haf ((LRUG.mem_Remove_iff _ k a).1 hag).1
  · rw [if_neg h3]
    exact h

omit [DecidableEq K] in
theorem TwoQWF_Purge (c : TwoQueueCacheG K V) (h : TwoQWF c) :
    TwoQWF (c.Purge) := by
  have hs := h.size_pos
  have hr := h.rsize
  have hf := h.fsize
  have hg := h.gsize
  unfold TwoQueueCacheG.Purge LRUG.Purge
  refine ⟨hs, hr, hf, hg, List.nodup_nil, List.nodup_nil, List.nodup_nil,
    ?_, ?_, ?_, ?_, ?_, ?_⟩
  · show (0 : Int) ≤ c.recent.size
    omega
  · show (0 : Int) ≤ c.frequent.size
    omega
  · show (0 : Int) ≤ c.recentEvict.size
    omega
  · intro a ha hb
    simp at ha
  · intro a ha hb
    simp at ha
  · intro a ha hb
    simp at ha

omit [DecidableEq K] in
theorem NewLRUG_ok (sz : Int) (h : ¬sz ≤ 0) :
    NewLRUG K V sz = Except.ok { size := sz, items := [] } := by
  unfold NewLRUG
  rw [if_neg h]

omit [DecidableEq K] in
theorem NewLRUG_err (sz : Int) (h : sz ≤ 0) :
    NewLRUG K V sz = Except.error "must provide a positive size" := by
  unfold NewLRUG
  rw [if_pos h]

theorem New2QParamsG_ok_elim (s : Int) ( recentRatio ghostRatio : ℚ)
    (c : TwoQueueCacheG K V)
    (h : New2QParamsG K V s recentRatio ghostRatio = Except.ok c) :
    0 < s ∧ ¬( recentRatio < 0 ∨ recentRatio > 1) ∧
    ¬( ghostRatio < 0 ∨ ghostRatio > 1) ∧ 0 < ⌊(s : ℚ) * ghostRatio⌋ ∧
    c = { size := s, recentSize := ⌊(s : ℚ) * recentRatio⌋,
          recent := { size := s, items := [] },
          frequent := { size := s, items := [] },
          recentEvict := { size := ⌊(s : ℚ) * ghostRatio⌋, items := [] } } := by
  unfold New2QParamsG at h
  by_cases h1 : s ≤ 0
  · rw [if_pos h1] at h
    exact absurd h (by simp)
  rw [if_neg h1] at h
  by_cases h2 : recentRatio < 0 ∨ recentRatio > 1
  · rw [if_pos h2] at h
    exact absurd h (by simp)
  rw [if_neg h2] at h
  by_cases h3 : ghostRatio < 0 ∨ ghostRatio > 1
  · rw [if_pos h3] at h
    exact absurd h (by simp)
  rw [if_neg h3] at h
  dsimp only at h
  rw [NewLRUG_ok s h1] at h
  by_cases h4 : ⌊(s : ℚ) * ghostRatio⌋ ≤ 0
  · rw [NewLRUG_err _ h4] at h
    dsimp only at h
    exact absurd h (by simp)
  · rw [NewLRUG_ok _ h4] at h
    dsimp only at h
    refine ⟨by omega, h2, h3, by omega, ?_⟩
    exact (Except.ok.inj h).symm

theorem New2QParamsG_error_of_evict_zero (s : Int) ( recentRatio ghostRatio : ℚ)
    (h1 : ¬s ≤ 0) (h2 : ¬( recentRatio < 0 ∨ recentRatio > 1))
    (h3 : ¬( ghostRatio < 0 ∨ ghostRatio > 1)) (h4 : ⌊(s : ℚ) * ghostRatio⌋ ≤ 0) :
    New2QParamsG K V s recentRatio ghostRatio
      = Except.error "must provide a positive size" := by
  unfold New2QParamsG
  rw [if_neg h1, if_neg h2, if_neg h3]
  dsimp only
  rw [NewLRUG_ok s h1, NewLRUG_err _ h4]

theorem New2QWF (s : Int) ( recentRatio ghostRatio : ℚ) (c : TwoQueueCacheG K V)
    (h : New2QParamsG K V s recentRatio ghostRatio = Except.ok c) : TwoQWF c := by
  obtain ⟨hs, _, _, hg, hc⟩ := New2QParamsG_ok_elim s recentRatio ghostRatio c h
  subst hc
  refine ⟨by dsimp only; omega, rfl, rfl, by dsimp only; omega,
    List.nodup_nil, List.nodup_nil,
    List.nodup_nil, ?_, ?_, ?_, ?_, ?_, ?_⟩
  · show (0 : Int) ≤ s
    omega
  · show (0 : Int) ≤ s
    omega
  · show (0 : Int) ≤ ⌊(s : ℚ) * ghostRatio⌋
    omega
  · intro a ha hb
    simp at ha
  · intro a ha hb
    simp at ha
  · intro a ha hb
    simp at ha

theorem TwoQueueCacheG.Get_size (c : TwoQueueCacheG K V) (k : K) :
    ((c.Get k).2).size = c.size ∧ ((c.Get k).2).recentSize = c.recentSize := by
  unfold TwoQueueCacheG.Get
  cases hfp : c.frequent.Peek k with
  | some v =>
    rw [LRUG.Get_of_peek_some _ _ _ hfp]
    exact ⟨rfl, rfl⟩
  | none =>
    rw [LRUG.Get_of_peek_none _ _ hfp]
    dsimp only
    cases hrp : c.recent.Peek k with
    | some v => exact ⟨rfl, rfl⟩
    | none => exact ⟨rfl, rfl⟩

theorem TwoQueueCacheG.Add_size [Inhabited K] [Inhabited V]
    (c : TwoQueueCacheG K V) (k : K) (v : V) :
    (c.Add k v).size = c.size ∧ (c.Add k v).recentSize = c.recentSize := by
  unfold TwoQueueCacheG.Add
  by_cases hf : c.frequent.Contains k = true
  · rw [if_pos hf]
    exact ⟨rfl, rfl⟩
  rw [if_neg hf]
  by_cases hr : c.recent.Contains k = true
  · rw [if_pos hr]
    exact ⟨rfl, rfl⟩
  rw [if_neg hr]
  by_cases hgst : c.recentEvict.Contains k = true
  · rw [if_pos hgst]
    dsimp only
    exact (c.ensureSpace_size true)
  · rw [if_neg hgst]
    dsimp only
    exact (c.ensureSpace_size false)

theorem TwoQueueCacheG.Remove_size (c : TwoQueueCacheG K V) (k : K) :
    (c.Remove k).size = c.size ∧ (c.Remove k).recentSize = c.recentSize := by
  unfold TwoQueueCacheG.Remove
  by_cases h1 : (c.frequent.Remove k).1 = true
  · rw [if_pos h1]
    exact ⟨rfl, rfl⟩
  rw [if_neg h1]
  by_cases h2 : (c.recent.Remove k).1 = true
  · rw [if_pos h2]
    exact ⟨rfl, rfl⟩
  rw [if_neg h2]
  by_cases h3 : (c.recentEvict.Remove k).1 = true
  · rw [if_pos h3]
    exact ⟨rfl, rfl⟩
  · rw [if_neg h3]
    exact ⟨rfl, rfl⟩

theorem TwoQApply_size [Inhabited K] [Inhabited V] (c : TwoQueueCacheG K V)
    (op : TwoQOp K V) :
    (TwoQApply c op).size = c.size ∧ (TwoQApply c op).recentSize = c.recentSize := by
  cases op with
  | get k => exact c.Get_size k
  | add k v => exact c.Add_size k v
  | remove k => exact c.Remove_size k
  | purge => exact ⟨rfl, rfl⟩
  | contains k => exact ⟨rfl, rfl⟩
  | peek k => exact ⟨rfl, rfl⟩
  | keys => exact ⟨rfl, rfl⟩
  | len => exact ⟨rfl, rfl⟩

theorem TwoQWF_TwoQApply [Inhabited K] [Inhabited V] (c : TwoQueueCacheG K V)
    (op : TwoQOp K V) (h : TwoQWF c) : TwoQWF (TwoQApply c op) := by
  cases op with
  | get k => exact TwoQWF_Get c k h
  | add k v => exact TwoQWF_Add c k v h
  | remove k => exact TwoQWF_Remove c k h
  | purge => exact TwoQWF_Purge c h
  | contains k => exact h
  | peek k => exact h
  | keys => exact h
  | len => exact h

theorem TwoQWF_TwoQRun [Inhabited K] [Inhabited V] (c : TwoQueueCacheG K V)
    (ops : List (TwoQOp K V)) (h : TwoQWF c) : TwoQWF (TwoQRun c ops) := by
  induction ops generalizing c with
  | nil => exact h
  | cons op ops ih => exact ih _ (TwoQWF_TwoQApply c op h)

theorem TwoQRun_size [Inhabited K] [Inhabited V] (c : TwoQueueCacheG K V)
    (ops : List (TwoQOp K V)) :
    (TwoQRun c ops).size = c.size ∧ (TwoQRun c ops).recentSize = c.recentSize := by
  induction ops generalizing c with
  | nil => exact ⟨rfl, rfl⟩
  | cons op ops ih =>
    obtain ⟨ha, hb⟩ := ih (TwoQApply c op)
    obtain ⟨hc, hd⟩ := TwoQApply_size c op
    exact ⟨by rw [TwoQRun, ha, hc], by rw [TwoQRun, hb, hd]⟩

theorem length_omToTail_le (l : List (K × V)) (k : K) :
    (omToTail l k).length ≤ l.length := by
  unfold omToTail
  cases hg : omGet l k with
  | none => exact le_rfl
  | some v =>
    have hk : k ∈ l.map Prod.fst := by
      rw [← omGet_isSome_iff, hg]
      rfl
    have := length_omErase_lt_of_mem l k hk
    simp only [List.length_append, List.length_cons, List.length_nil]
    omega

theorem length_omSet_le_succ (l : List (K × V)) (k : K) (v : V) :
    (omSet l k v).length ≤ l.length + 1 := by
  by_cases hm : k ∈ l.map Prod.fst
  · rw [length_omSet_of_mem l k v hm]
    omega
  · rw [length_omSet_of_not_mem l k v hm]

theorem LRUG.length_Add_le_succ (c : LRUG K V) (k : K) (v : V) :
    ((c.Add k v).2).items.length ≤ c.items.length + 1 := by
  unfold LRUG.Add
  dsimp only
  by_cases hcont : omContains c.items k = true
  · rw [if_pos hcont]
    have h1 : (omToTail c.items k).length ≤ c.items.length :=
      length_omToTail_le _ _
    have h2 := length_omSet_le_succ (omToTail c.items k) k v
    by_cases hev : decide (((omSet (omToTail c.items k) k v).length : Int)
        > c.size) = true
    · rw [if_pos hev]
      have h3 := (LRUG.removeOldest_items_sublist
        (c := { c with items := omSet (omToTail c.items k) k v })).length_le
      dsimp only at h3
      omega
    · rw [if_neg hev]
      dsimp only
      omega
  · rw [if_neg hcont]
    have h2 := length_omSet_le_succ c.items k v
    by_cases hev : decide (((omSet c.items k v).length : Int) > c.size) = true
    · rw [if_pos hev]
      have h3 := (LRUG.removeOldest_items_sublist
        (c := { c with items := omSet c.items k v })).length_le
      dsimp only at h3
      omega
    · rw [if_neg hev]
      dsimp only
      omega

theorem LRUG.length_Add_of_mem_le (c : LRUG K V) (k : K) (v : V)
    (hmem : k ∈ c.items.map Prod.fst) (hle : c.Len ≤ c.size) :
    ((c.Add k v).2).Len ≤ c.Len := by
  rw [LRUG.Add_of_mem c k v hmem hle]
  show ((omSet (omToTail c.items k) k v).length : Int) ≤ c.Len
  rw [length_omSet_of_mem _ _ _ ((mem_map_fst_omToTail _ _ _).2 hmem)]
  unfold LRUG.Len
  exact_mod_cast length_omToTail_le c.items k

theorem TwoQueueCacheG.ensureSpace_len [Inhabited K] [Inhabited V]
    (c : TwoQueueCacheG K V) (b : Bool) (hwf : TwoQWF c)
    (hrs : c.recentSize < c.size)
    (hfull : ¬c.recent.Len + c.frequent.Len < c.size) :
    (c.ensureSpace b).recent.Len + (c.ensureSpace b).frequent.Len + 1
      ≤ c.recent.Len + c.frequent.Len := by
  by_cases hg : c.recent.Len > 0 ∧ (c.recent.Len > c.recentSize ∨
      (c.recent.Len = c.recentSize ∧ b = false))
  · obtain ⟨e, he⟩ := c.recent.exists_head_of_len_pos hg.1
    rw [c.ensureSpace_of_full_guard b hfull hg, LRUG.RemoveOldest_of_head _ e he]
    dsimp only
    have h1 := length_omErase_lt_of_mem c.recent.items e.1 (c.recent.head_mem_keys e he)
    show ((omErase c.recent.items e.1).length : Int) + c.frequent.Len + 1
      ≤ c.recent.Len + c.frequent.Len
    unfold LRUG.Len
    omega
  · rw [c.ensureSpace_of_full_noguard b hfull hg]
    dsimp only
    have hsp := hwf.size_pos
    unfold LRUG.Len at hfull ⊢
    have hfpos : 0 < c.frequent.items.length := by
      by_contra hc0
      push_neg at hc0
      refine hg ⟨?_, Or.inl ?_⟩
      · unfold LRUG.Len
        omega
      · unfold LRUG.Len
        omega
    have hne : c.frequent.items ≠ [] := by
      intro h0
      rw [h0] at hfpos
      simp at hfpos
    have h2 := c.frequent.length_removeOldest_of_ne_nil hne
    omega

theorem twoq_len_Get (c : TwoQueueCacheG K V) (k : K) (hwf : TwoQWF c)
    (hlen : c.recent.Len + c.frequent.Len ≤ c.size) :
    ((c.Get k).2).recent.Len + ((c.Get k).2).frequent.Len ≤ c.size := by
  unfold TwoQueueCacheG.Get
  cases hfp : c.frequent.Peek k with
  | some v =>
    rw [LRUG.Get_of_peek_some _ _ _ hfp]
    dsimp only
    show c.recent.Len + ((omToTail c.frequent.items k).length : Int) ≤ c.size
    rw [length_omToTail_of_nodup _ _ hwf.fnodup]
    exact hlen
  | none =>
    rw [LRUG.Get_of_peek_none _ _ hfp]
    dsimp only
    cases hrp : c.recent.Peek k with
    | some v =>
      dsimp only
      have hkr : k ∈ c.recent.items.map Prod.fst :=
        LRUG.mem_of_peek_some _ _ _ hrp
      have h1 := LRUG.length_Remove_of_mem c.recent k hkr
      have h2 := LRUG.length_Add_le_succ c.frequent k v
      show ((c.recent.Remove k).2).Len + ((c.frequent.Add k v).2).Len ≤ c.size
      unfold LRUG.Len at hlen ⊢
      omega
    | none => exact hlen

theorem twoq_len_Add [Inhabited K] [Inhabited V] (c : TwoQueueCacheG K V)
    (k : K) (v : V) (hwf : TwoQWF c) (hrs : c.recentSize < c.size)
    (hlen : c.recent.Len + c.frequent.Len ≤ c.size) :
    (c.Add k v).recent.Len + (c.Add k v).frequent.Len ≤ c.size := by
  unfold TwoQueueCacheG.Add
  by_cases hf : c.frequent.Contains k = true
  · rw [if_pos hf]
    dsimp only
    have h1 := LRUG.length_Add_of_mem_le c.frequent k v
      (LRUG.mem_of_contains _ _ hf) hwf.flen
    show c.recent.Len + ((c.frequent.Add k v).2).Len ≤ c.size
    omega
  rw [if_neg hf]
  by_cases hr : c.recent.Contains k = true
  · rw [if_pos hr]
    dsimp only
    have h1 := LRUG.length_Remove_of_mem c.recent k (LRUG.mem_of_contains _ _ hr)
    have h2 := LRUG.length_Add_le_succ c.frequent k v
    show ((c.recent.Remove k).2).Len + ((c.frequent.Add k v).2).Len ≤ c.size
    unfold LRUG.Len at hlen ⊢
    omega
  rw [if_neg hr]
  by_cases hgst : c.recentEvict.Contains k = true
  · rw [if_pos hgst]
    dsimp only
    have h2 := LRUG.length_Add_le_succ (c.ensureSpace true).frequent k v
    show (c.ensureSpace true).recent.Len
        + (((c.ensureSpace true).frequent.Add k v).2).Len ≤ c.size
    by_cases hroom : c.recent.Len + c.frequent.Len < c.size
    · rw [c.ensureSpace_of_room true hroom] at h2 ⊢
      unfold LRUG.Len at hroom hlen ⊢
      omega
    · have h3 := c.ensureSpace_len true hwf hrs hroom
      unfold LRUG.Len at hlen h3 ⊢
      omega
  · rw [if_neg hgst]
    dsimp only
    have h2 := LRUG.length_Add_le_succ (c.ensureSpace false).recent k v
    show (((c.ensureSpace false).recent.Add k v).2).Len
        + (c.ensureSpace false).frequent.Len ≤ c.size
    by_cases hroom : c.recent.Len + c.frequent.Len < c.size
    · rw [c.ensureSpace_of_room false hroom] at h2 ⊢
      unfold LRUG.Len at hroom hlen ⊢
      omega
    · have h3 := c.ensureSpace_len false hwf hrs hroom
      unfold LRUG.Len at hlen h3 ⊢
      omega

theorem twoq_len_Remove (c : TwoQueueCacheG K V) (k : K)
    (hlen : c.recent.Len + c.frequent.Len ≤ c.size) :
    (c.Remove k).recent.Len + (c.Remove k).frequent.Len ≤ c.size := by
  unfold TwoQueueCacheG.Remove
  by_cases h1 : (c.frequent.Remove k).1 = true
  · rw [if_pos h1]
    dsimp only
    have h2 := LRUG.length_Remove_le c.frequent k
    show c.recent.Len + ((c.frequent.Remove k).2).Len ≤ c.size
    unfold LRUG.Len at hlen ⊢
    omega
  rw [if_neg h1]
  by_cases h2 : (c.recent.Remove k).1 = true
  · rw [if_pos h2]
    dsimp only
    have h3 := LRUG.length_Remove_le c.recent k
    show ((c.recent.Remove k).2).Len + c.frequent.Len ≤ c.size
    unfold LRUG.Len at hlen ⊢
    omega
  rw [if_neg h2]
  by_cases h3 : (c.recentEvict.Remove k).1 = true
  · rw [if_pos h3]
    exact hlen
  · rw [if_neg h3]
    exact hlen

theorem twoq_len_TwoQApply [Inhabited K] [Inhabited V] (c : TwoQueueCacheG K V)
    (op : TwoQOp K V) (hwf : TwoQWF c) (hrs : c.recentSize < c.size)
    (hlen : c.recent.Len + c.frequent.Len ≤ c.size) :
    (TwoQApply c op).recent.Len + (TwoQApply c op).frequent.Len ≤ c.size := by
  cases op with
  | get k => exact twoq_len_Get c k hwf hlen
  | add k v => exact twoq_len_Add c k v hwf hrs hlen
  | remove k => exact twoq_len_Remove c k hlen
  | purge =>
    show (0 : Int) + (0 : Int) ≤ c.size
    have := hwf.size_pos
    omega
  | contains k => exact hlen
  | peek k => exact hlen
  | keys => exact hlen
  | len => exact hlen

theorem twoq_len_TwoQRun [Inhabited K] [Inhabited V] (c : TwoQueueCacheG K V)
    (ops : List (TwoQOp K V)) (hwf : TwoQWF c) (hrs : c.recentSize < c.size)
    (hlen : c.recent.Len + c.frequent.Len ≤ c.size) :
    (TwoQRun c ops).recent.Len + (TwoQRun c ops).frequent.Len ≤ c.size := by
  induction ops generalizing c with
  | nil => exact hlen
  | cons op ops ih =>
    show (TwoQRun (TwoQApply c op) ops).recent.Len
        + (TwoQRun (TwoQApply c op) ops).frequent.Len ≤ c.size
    obtain ⟨hsz, hrsz⟩ := TwoQApply_size c op
    have := ih (TwoQApply c op) (TwoQWF_TwoQApply c op hwf)
      (by rw [hsz, hrsz]; exact hrs)
      (by rw [hsz]; exact twoq_len_TwoQApply c op hwf hrs hlen)
    rw [hsz] at this
    exact this

theorem New2QParamsG_ok_build (s : Int) ( recentRatio ghostRatio : ℚ)
    (h1 : ¬s ≤ 0) (h2 : ¬( recentRatio < 0 ∨ recentRatio > 1))
    (h3 : ¬( ghostRatio < 0 ∨ ghostRatio > 1)) (h4 : ¬⌊(s : ℚ) * ghostRatio⌋ ≤ 0) :
    New2QParamsG K V s recentRatio ghostRatio
      = Except.ok
          { size := s, recentSize := ⌊(s : ℚ) * recentRatio⌋,
            recent := { size := s, items := [] },
            frequent := { size := s, items := [] },
            recentEvict := { size := ⌊(s : ℚ) * ghostRatio⌋, items := [] } } := by
  unfold New2QParamsG
  rw [if_neg h1, if_neg h2, if_neg h3]
  dsimp only
  rw [NewLRUG_ok s h1, NewLRUG_ok _ h4]

/-- C3 (amended): `New2QParamsG` returns a cache exactly when `0 < size`,
both ratios lie in `[0, 1]`, and the derived ghost capacity
`⌊size * ghostRatio⌋` is positive.  A ghost capacity of zero is rejected by
`NewLRUG` (which demands a positive size), so — unlike what the original
claim states — it is not a legal configuration. -/
theorem New2QParamsG_ok_iff (s : Int) ( recentRatio ghostRatio : ℚ) :
    (∃ c : TwoQueueCacheG K V,
        New2QParamsG K V s recentRatio ghostRatio = Except.ok c)
      ↔ (0 < s ∧ 0 ≤ recentRatio ∧ recentRatio ≤ 1 ∧ 0 ≤ ghostRatio ∧
          ghostRatio ≤ 1 ∧ 0 < ⌊(s : ℚ) * ghostRatio⌋) := by
  constructor
  · rintro ⟨c, hc⟩
    obtain ⟨hs, h2, h3, h4, -⟩ := New2QParamsG_ok_elim s _ _ c hc
    push_neg at h2 h3
    exact ⟨hs, h2.1, h2.2, h3.1, h3.2, h4⟩
  · rintro ⟨hs, ha, hb, hc2, hd, he⟩
    exact ⟨_, New2QParamsG_ok_build s _ _ (by omega)
      (by push_neg; exact ⟨ha, hb⟩) (by push_neg; exact ⟨hc2, hd⟩) (by omega)⟩

/-- C3 counterexample: size 1 with the default ratios (0.25, 0.50) satisfies
every validity condition of the original claim (positive size, ratios inside
`[0, 1]`), yet construction fails, because the ghost pool capacity
`⌊1 * 0.5⌋ = 0` is passed to `NewLRUG`, which rejects it. -/
theorem New2QG_size_one_fails :
    (0 < (1 : Int) ∧ 0 ≤ Default2QRecentRatioG ∧ Default2QRecentRatioG ≤ 1 ∧
      0 ≤ Default2QGhostEntriesG ∧ Default2QGhostEntriesG ≤ 1) ∧
    New2QG Nat Nat 1 = Except.error "must provide a positive size" := by
  constructor
  · refine ⟨by norm_num, ?_, ?_, ?_, ?_⟩ <;>
      norm_num [Default2QRecentRatioG, Default2QGhostEntriesG]
  · show New2QParamsG Nat Nat 1 Default2QRecentRatioG Default2QGhostEntriesG = _
    apply New2QParamsG_error_of_evict_zero
    · norm_num
    · norm_num [Default2QRecentRatioG]
    · norm_num [Default2QGhostEntriesG]
    · norm_num [Default2QGhostEntriesG]

theorem twoqInit4_built :
    New2QParamsG Nat Nat 4 (1/4) (1/2) = Except.ok twoqInit4 := by
  have h1 : ⌊((4 : Int) : ℚ) * (1/4)⌋ = 1 := by norm_num
  have h2 : ⌊((4 : Int) : ℚ) * (1/2)⌋ = 2 := by norm_num
  rw [New2QParamsG_ok_build 4 (1/4) (1/2) (by norm_num) (by norm_num)
    (by norm_num) (by rw [h2]; norm_num), h1, h2]
  rfl

theorem twoqFull4_wf : TwoQWF twoqFull4 :=
  TwoQWF_TwoQRun twoqInit4 _ (New2QWF 4 (1/4) (1/2) twoqInit4 twoqInit4_built)

theorem twoqInitR1_built :
    New2QParamsG Nat Nat 4 1 (1/2) = Except.ok twoqInitR1 := by
  have h1 : ⌊((4 : Int) : ℚ) * 1⌋ = 4 := by norm_num
  have h2 : ⌊((4 : Int) : ℚ) * (1/2)⌋ = 2 := by norm_num
  rw [New2QParamsG_ok_build 4 1 (1/2) (by norm_num) (by norm_num)
    (by norm_num) (by rw [h2]; norm_num), h1, h2]
  rfl

/-- C1 (amended): on a well-formed state, `ensureSpace` is a no-op while
`recent.Len + frequent.Len < size`; otherwise, when `recent` is non-empty and
(`recent.Len > recentSize`, or `recent.Len = recentSize` with the hint
`false`), it removes exactly `recent`'s oldest entry, leaves `frequent`
unchanged, and records the bare key (with the zero value `default`) as a
ghost in `recentEvict`; otherwise it removes `frequent`'s oldest entry when
`frequent` is non-empty — and, the correction to the claim, removes nothing
at all when `frequent` is empty too (reachable exactly when
`recentSize = size`, i.e. recentRatio 1.0). -/
theorem twoq_ensureSpace_spec [Inhabited K] [Inhabited V]
    (c : TwoQueueCacheG K V) (b : Bool) (hwf : TwoQWF c) :
    (c.recent.Len + c.frequent.Len < c.size → c.ensureSpace b = c) ∧
    (¬c.recent.Len + c.frequent.Len < c.size →
      ((c.recent.Len > 0 ∧ (c.recent.Len > c.recentSize ∨
          (c.recent.Len = c.recentSize ∧ b = false))) →
        ∃ x v0, c.recent.items.head? = some (x, v0) ∧
          (c.ensureSpace b).recent.items = c.recent.items.tail ∧
          (c.ensureSpace b).frequent = c.frequent ∧
          (c.ensureSpace b).recentEvict.Peek x = some default ∧
          x ∈ (c.ensureSpace b).recentEvict.items.map Prod.fst) ∧
      (¬(c.recent.Len > 0 ∧ (c.recent.Len > c.recentSize ∨
          (c.recent.Len = c.recentSize ∧ b = false))) →
        (c.ensureSpace b).recent = c.recent ∧
        (c.ensureSpace b).recentEvict = c.recentEvict ∧
        (c.ensureSpace b).frequent.items = c.frequent.items.tail)) := by
  refine ⟨fun hroom => c.ensureSpace_of_room b hroom, fun hfull => ⟨?_, ?_⟩⟩
  · intro hg
    obtain ⟨e, he⟩ := c.recent.exists_head_of_len_pos hg.1
    have hstate : c.ensureSpace b =
        { c with recent := { c.recent with items := omErase c.recent.items e.1 },
                 recentEvict := (c.recentEvict.Add e.1 default).2 } := by
      rw [c.ensureSpace_of_full_guard b hfull hg, LRUG.RemoveOldest_of_head _ e he]
      rfl
    rw [hstate]
    have hpeek : ((c.recentEvict.Add e.1 default).2).Peek e.1 = some default :=
      LRUG.peek_Add_self _ _ _ hwf.gsize hwf.glen
    refine ⟨e.1, e.2, he, ?_, rfl, hpeek, LRUG.mem_of_peek_some _ _ _ hpeek⟩
    show omErase c.recent.items e.1 = c.recent.items.tail
    cases hi : c.recent.items with
    | nil =>
      rw [hi] at he
      exact Option.noConfusion he
    | cons e0 l =>
      have hnd := hwf.rnodup
      unfold LRUG.NodupKeys at hnd
      rw [hi] at hnd he
      simp only [List.head?_cons, Option.some.injEq] at he
      subst he
      exact omErase_cons_of_nodup e0 l hnd
  · intro hg
    rw [c.ensureSpace_of_full_noguard b hfull hg]
    exact ⟨rfl, rfl, LRUG.removeOldest_items_of_nodup _ hwf.fnodup⟩

/-- C1 witness: `twoq_ensureSpace_spec` applied to the concrete full size-4
default-ratio cache with hint `false`. -/
theorem twoq_ensureSpace_spec_witness :
    TwoQWF twoqFull4 ∧
    ((twoqFull4.recent.Len + twoqFull4.frequent.Len < twoqFull4.size →
        twoqFull4.ensureSpace false = twoqFull4) ∧
    (¬twoqFull4.recent.Len + twoqFull4.frequent.Len < twoqFull4.size →
      ((twoqFull4.recent.Len > 0 ∧ (twoqFull4.recent.Len > twoqFull4.recentSize ∨
          (twoqFull4.recent.Len = twoqFull4.recentSize ∧ false = false))) →
        ∃ x v0, twoqFull4.recent.items.head? = some (x, v0) ∧
          (twoqFull4.ensureSpace false).recent.items
            = twoqFull4.recent.items.tail ∧
          (twoqFull4.ensureSpace false).frequent = twoqFull4.frequent ∧
          (twoqFull4.ensureSpace false).recentEvict.Peek x = some default ∧
          x ∈ (twoqFull4.ensureSpace false).recentEvict.items.map Prod.fst) ∧
      (¬(twoqFull4.recent.Len > 0 ∧ (twoqFull4.recent.Len > twoqFull4.recentSize ∨
          (twoqFull4.recent.Len = twoqFull4.recentSize ∧ false = false))) →
        (twoqFull4.ensureSpace false).recent = twoqFull4.recent ∧
        (twoqFull4.ensureSpace false).recentEvict = twoqFull4.recentEvict ∧
        (twoqFull4.ensureSpace false).frequent.items
          = twoqFull4.frequent.items.tail))) :=
  ⟨twoqFull4_wf, twoq_ensureSpace_spec twoqFull4 false twoqFull4_wf⟩

/-- C1 counterexample: with recentRatio 1.0 (a valid parameter), the
reachable state `twoqR1Full` is full (`recent.Len + frequent.Len = size`),
and yet `ensureSpace true` changes nothing — zero entries are evicted, not
"exactly one": `recent` keeps its guard unsatisfied and `frequent` is
empty. -/
theorem twoq_ensureSpace_evicts_nothing_cex :
    New2QParamsG Nat Nat 4 1 (1/2) = Except.ok twoqInitR1 ∧
    ¬twoqR1Full.recent.Len + twoqR1Full.frequent.Len < twoqR1Full.size ∧
    twoqR1Full.frequent.Len = 0 ∧
    twoqR1Full.ensureSpace true = twoqR1Full :=
  ⟨twoqInitR1_built, by decide, by decide, by decide⟩

/-- C2 (amended): provided the derived `recentSize` is strictly below `size`
(which holds for every recentRatio < 1.0; the counterexample shows
recentRatio = 1.0 violates the bound), every sequence of public operations
keeps `recent.Len + frequent.Len ≤ size`, and hence `Len ≤ size`. -/
theorem twoq_len_invariant [Inhabited K] [Inhabited V]
    (s : Int) ( recentRatio ghostRatio : ℚ)
    (c0 : TwoQueueCacheG K V)
    (h : New2QParamsG K V s recentRatio ghostRatio = Except.ok c0)
    (hrs : c0.recentSize < c0.size) (ops : List (TwoQOp K V)) :
    (TwoQRun c0 ops).recent.Len + (TwoQRun c0 ops).frequent.Len ≤ s ∧
    (TwoQRun c0 ops).Len ≤ s := by
  obtain ⟨hs, -, -, -, hc⟩ := New2QParamsG_ok_elim s _ _ c0 h
  have hwf := New2QWF s _ _ c0 h
  have hsize : c0.size = s := by rw [hc]
  have hlen0 : c0.recent.Len + c0.frequent.Len ≤ c0.size := by
    rw [hc]
    show (0 : Int) + 0 ≤ s
    omega
  have hrun := twoq_len_TwoQRun c0 ops hwf hrs hlen0
  rw [hsize] at hrun
  exact ⟨hrun, hrun⟩

/-- C2 witness: the invariant instantiated on the size-4 default-ratio cache
and a concrete operation sequence. -/
theorem twoq_len_invariant_witness :
    (New2QParamsG Nat Nat 4 (1/4) (1/2) = Except.ok twoqInit4 ∧
      twoqInit4.recentSize < twoqInit4.size) ∧
    ((TwoQRun twoqInit4 [TwoQOp.add 1 10, TwoQOp.add 2 20, TwoQOp.get 1,
        TwoQOp.add 3 30]).recent.Len
      + (TwoQRun twoqInit4 [TwoQOp.add 1 10, TwoQOp.add 2 20, TwoQOp.get 1,
        TwoQOp.add 3 30]).frequent.Len ≤ 4 ∧
    (TwoQRun twoqInit4 [TwoQOp.add 1 10, TwoQOp.add 2 20, TwoQOp.get 1,
        TwoQOp.add 3 30]).Len ≤ 4) :=
  ⟨⟨twoqInit4_built, by decide⟩,
    twoq_len_invariant 4 (1/4) (1/2) twoqInit4 twoqInit4_built (by decide) _⟩

/-- C2 counterexample: with the valid parameters size 4, recentRatio 1.0,
ghostRatio 0.5, the public sequence add 1..5 then add 1 again (a ghost
re-admission) leaves `recent.Len + frequent.Len = 5 > 4 = size`: the full
cache's `ensureSpace true` found `frequent` empty and the `recent` guard
unsatisfied, so nothing was evicted before the insertion. -/
theorem twoq_len_invariant_cex :
    New2QParamsG Nat Nat 4 1 (1/2) = Except.ok twoqInitR1 ∧
    (TwoQRun twoqInitR1 [TwoQOp.add 1 0, TwoQOp.add 2 0, TwoQOp.add 3 0,
        TwoQOp.add 4 0, TwoQOp.add 5 0, TwoQOp.add 1 7]).recent.Len
      + (TwoQRun twoqInitR1 [TwoQOp.add 1 0, TwoQOp.add 2 0, TwoQOp.add 3 0,
        TwoQOp.add 4 0, TwoQOp.add 5 0, TwoQOp.add 1 7]).frequent.Len = 5 ∧
    (TwoQRun twoqInitR1 [TwoQOp.add 1 0, TwoQOp.add 2 0, TwoQOp.add 3 0,
        TwoQOp.add 4 0, TwoQOp.add 5 0, TwoQOp.add 1 7]).size = 4 :=
  ⟨twoqInitR1_built, by decide, by decide⟩

/-- C5: in every state reachable by a sequence of public operations from a
freshly constructed Two-Queue cache, each key lies in at most one of the
three pools (`recent`, `frequent`, `recentEvict`). -/
theorem twoq_pools_disjoint [Inhabited K] [Inhabited V]
    (s : Int) ( recentRatio ghostRatio : ℚ)
    (c0 : TwoQueueCacheG K V)
    (h : New2QParamsG K V s recentRatio ghostRatio = Except.ok c0)
    (ops : List (TwoQOp K V)) (a : K) :
    ¬(a ∈ (TwoQRun c0 ops).recent.items.map Prod.fst ∧
      a ∈ (TwoQRun c0 ops).frequent.items.map Prod.fst) ∧
    ¬(a ∈ (TwoQRun c0 ops).recent.items.map Prod.fst ∧
      a ∈ (TwoQRun c0 ops).recentEvict.items.map Prod.fst) ∧
    ¬(a ∈ (TwoQRun c0 ops).frequent.items.map Prod.fst ∧
      a ∈ (TwoQRun c0 ops).recentEvict.items.map Prod.fst) := by
  have hwf := TwoQWF_TwoQRun c0 ops (New2QWF s _ _ c0 h)
  exact ⟨fun hx => hwf.disj_rf a hx.1 hx.2, fun hx => hwf.disj_rg a hx.1 hx.2,
    fun hx => hwf.disj_fg a hx.1 hx.2⟩

/-- C5 witness: disjointness instantiated on a concrete run that exercises
promotion and ghost creation, checked for the evicted key 1. -/
theorem twoq_pools_disjoint_witness :
    New2QParamsG Nat Nat 4 (1/4) (1/2) = Except.ok twoqInit4 ∧
    (¬((1 : Nat) ∈ (TwoQRun twoqInit4 [TwoQOp.add 1 10, TwoQOp.add 2 20,
        TwoQOp.get 1, TwoQOp.add 3 30]).recent.items.map Prod.fst ∧
      (1 : Nat) ∈ (TwoQRun twoqInit4 [TwoQOp.add 1 10, TwoQOp.add 2 20,
        TwoQOp.get 1, TwoQOp.add 3 30]).frequent.items.map Prod.fst) ∧
    ¬((1 : Nat) ∈ (TwoQRun twoqInit4 [TwoQOp.add 1 10, TwoQOp.add 2 20,
        TwoQOp.get 1, TwoQOp.add 3 30]).recent.items.map Prod.fst ∧
      (1 : Nat) ∈ (TwoQRun twoqInit4 [TwoQOp.add 1 10, TwoQOp.add 2 20,
        TwoQOp.get 1, TwoQOp.add 3 30]).recentEvict.items.map Prod.fst) ∧
    ¬((1 : Nat) ∈ (TwoQRun twoqInit4 [TwoQOp.add 1 10, TwoQOp.add 2 20,
        TwoQOp.get 1, TwoQOp.add 3 30]).frequent.items.map Prod.fst ∧
      (1 : Nat) ∈ (TwoQRun twoqInit4 [TwoQOp.add 1 10, TwoQOp.add 2 20,
        TwoQOp.get 1, TwoQOp.add 3 30]).recentEvict.items.map Prod.fst)) :=
  ⟨twoqInit4_built,
    twoq_pools_disjoint 4 (1/4) (1/2) twoqInit4 twoqInit4_built _ 1⟩

/-- C4: when `ensureSpace` evicts the oldest recent entry `(x, v0)` (the
cache is full and the recent-eviction guard holds), `x` becomes a ghost in
`recentEvict`; immediately afterwards `Get x` is a miss; and a subsequent
`Add x v` removes the ghost and lands `(x, v)` in the `frequent` pool:
afterwards `x` is in `frequent` (with value `v`) and not in `recent`. -/
theorem twoq_ghost_readmission [Inhabited K] [Inhabited V]
    (c : TwoQueueCacheG K V) (b : Bool) (x : K) (v0 v : V) (hwf : TwoQWF c)
    (hfull : ¬c.recent.Len + c.frequent.Len < c.size)
    (hg : c.recent.Len > 0 ∧ (c.recent.Len > c.recentSize ∨
      (c.recent.Len = c.recentSize ∧ b = false)))
    (hhead : c.recent.items.head? = some (x, v0)) :
    x ∈ (c.ensureSpace b).recentEvict.items.map Prod.fst ∧
    ((c.ensureSpace b).Get x).1 = none ∧
    ((c.ensureSpace b).Add x v).frequent.Peek x = some v ∧
    x ∈ ((c.ensureSpace b).Add x v).frequent.items.map Prod.fst ∧
    x ∉ ((c.ensureSpace b).Add x v).recent.items.map Prod.fst := by
  have hxr : x ∈ c.recent.items.map Prod.fst :=
    c.recent.head_mem_keys (x, v0) hhead
  have hstate : c.ensureSpace b =
      { c with recent := { c.recent with items := omErase c.recent.items x },
               recentEvict := (c.recentEvict.Add x default).2 } := by
    rw [c.ensureSpace_of_full_guard b hfull hg,
      LRUG.RemoveOldest_of_head _ (x, v0) hhead]
    rfl
  have hwf1 : TwoQWF (c.ensureSpace b) := TwoQWF_ensureSpace c b hwf
  have hpeekg : ((c.recentEvict.Add x default).2).Peek x = some default :=
    LRUG.peek_Add_self _ _ _ hwf.gsize hwf.glen
  have hxg : x ∈ (c.ensureSpace b).recentEvict.items.map Prod.fst := by
    rw [hstate]
    exact LRUG.mem_of_peek_some _ _ _ hpeekg
  have hxnr : x ∉ (c.ensureSpace b).recent.items.map Prod.fst := by
    rw [hstate]
    intro hmem
    exact ((mem_map_fst_omErase _ _ _).1 hmem).2 rfl
  have hxnf : x ∉ (c.ensureSpace b).frequent.items.map Prod.fst := by
    rw [hstate]
    intro hmem
    exact hwf.disj_rf x hxr hmem
  have hget : ((c.ensureSpace b).Get x).1 = none := by
    unfold TwoQueueCacheG.Get
    have hf : (c.ensureSpace b).frequent.Peek x = none :=
      (LRUG.peek_eq_none_iff _ x).2 hxnf
    rw [LRUG.Get_of_peek_none _ _ hf]
    dsimp only
    have hr : (c.ensureSpace b).recent.Peek x = none :=
      (LRUG.peek_eq_none_iff _ x).2 hxnr
    rw [hr]
  have hcf : ¬(c.ensureSpace b).frequent.Contains x = true :=
    fun hcc => hxnf (LRUG.mem_of_contains _ _ hcc)
  have hcr : ¬(c.ensureSpace b).recent.Contains x = true :=
    fun hcc => hxnr (LRUG.mem_of_contains _ _ hcc)
  have hcg : (c.ensureSpace b).recentEvict.Contains x = true :=
    (LRUG.contains_iff _ x).2 hxg
  have hAdd : (c.ensureSpace b).Add x v =
      { (c.ensureSpace b).ensureSpace true with
        recentEvict :=
          ((((c.ensureSpace b).ensureSpace true).recentEvict.Remove x)).2,
        frequent :=
          ((((c.ensureSpace b).ensureSpace true).frequent.Add x v)).2 } := by
    unfold TwoQueueCacheG.Add
    rw [if_neg hcf, if_neg hcr, if_pos hcg]
  have hwf2 : TwoQWF ((c.ensureSpace b).ensureSpace true) :=
    TwoQWF_ensureSpace _ true hwf1
  have hpeekf :
      ((((c.ensureSpace b).ensureSpace true).frequent.Add x v).2).Peek x
        = some v := by
    apply LRUG.peek_Add_self
    · rw [hwf2.fsize]
      exact hwf2.size_pos
    · exact hwf2.flen
  refine ⟨hxg, hget, ?_, ?_, ?_⟩
  · rw [hAdd]
    exact hpeekf
  · rw [hAdd]
    exact LRUG.mem_of_peek_some _ _ _ hpeekf
  · rw [hAdd]
    intro hmem
    exact hxnr ((c.ensureSpace b).ensureSpace_recent_subset true x hmem)

/-- C4 witness: the re-admission property on the concrete full size-4
default-ratio cache, evicting key 1 and re-adding it with value 99. -/
theorem twoq_ghost_readmission_witness :
    (TwoQWF twoqFull4 ∧
      ¬twoqFull4.recent.Len + twoqFull4.frequent.Len < twoqFull4.size ∧
      (twoqFull4.recent.Len > 0 ∧ (twoqFull4.recent.Len > twoqFull4.recentSize ∨
        (twoqFull4.recent.Len = twoqFull4.recentSize ∧ false = false))) ∧
      twoqFull4.recent.items.head? = some (1, 10)) ∧
    ((1 : Nat) ∈ (twoqFull4.ensureSpace false).recentEvict.items.map Prod.fst ∧
      ((twoqFull4.ensureSpace false).Get 1).1 = none ∧
      ((twoqFull4.ensureSpace false).Add 1 99).frequent.Peek 1 = some 99 ∧
      (1 : Nat) ∈ ((twoqFull4.ensureSpace false).Add 1 99).frequent.items.map
        Prod.fst ∧
      (1 : Nat) ∉ ((twoqFull4.ensureSpace false).Add 1 99).recent.items.map
        Prod.fst) :=
  ⟨⟨twoqFull4_wf, by decide, by decide, by decide⟩,
    twoq_ghost_readmission twoqFull4 false 1 10 99 twoqFull4_wf (by decide)
      (by decide) (by decide)⟩

theorem LRUApply_size (c : LRUG K V) (op : LRUOp K V) :
    (LRUApply c op).size = c.size := by
  cases op with
  | add k v => exact LRUG.size_Add c k v
  | get k => exact LRUG.size_Get c k
  | remove k => exact LRUG.size_Remove c k
  | removeOldest =>
    show ((c.RemoveOldest).2).size = c.size
    rw [LRUG.RemoveOldest_snd]
    exact LRUG.size_removeOldest c
  | purge => rfl
  | peek k => rfl
  | contains k => rfl
  | getOldest => rfl
  | keys => rfl
  | len => rfl

theorem LRUApply_len_le (c : LRUG K V) (op : LRUOp K V)
    (hpos : 1 ≤ c.size) (hlen : c.Len ≤ c.size) :
    (LRUApply c op).Len ≤ c.size := by
  cases op with
  | add k v => exact LRUG.length_Add_le c k v hlen
  | get k =>
    show ((c.Get k).2).Len ≤ c.size
    unfold LRUG.Get
    cases hp : c.Peek k with
    | some v =>
      dsimp only
      show ((omToTail c.items k).length : Int) ≤ c.size
      have := length_omToTail_le c.items k
      unfold LRUG.Len at hlen
      omega
    | none => exact hlen
  | remove k =>
    show ((c.Remove k).2).Len ≤ c.size
    have := LRUG.length_Remove_le c k
    unfold LRUG.Len at hlen ⊢
    omega
  | removeOldest =>
    show ((c.RemoveOldest).2).Len ≤ c.size
    rw [LRUG.RemoveOldest_snd]
    have := (c.removeOldest_items_sublist).length_le
    unfold LRUG.Len at hlen ⊢
    omega
  | purge =>
    show (0 : Int) ≤ c.size
    omega
  | peek k => exact hlen
  | contains k => exact hlen
  | getOldest => exact hlen
  | keys => exact hlen
  | len => exact hlen

theorem LRURun_size_len (c : LRUG K V) (ops : List (LRUOp K V))
    (hpos : 1 ≤ c.size) (hlen : c.Len ≤ c.size) :
    (LRURun c ops).size = c.size ∧ (LRURun c ops).Len ≤ c.size := by
  induction ops generalizing c with
  | nil => exact ⟨rfl, hlen⟩
  | cons op ops ih =>
    have hsz := LRUApply_size c op
    obtain ⟨ha, hb⟩ := ih (LRUApply c op) (by rw [hsz]; exact hpos)
      (by rw [hsz]; exact LRUApply_len_le c op hpos hlen)
    rw [hsz] at ha hb
    exact ⟨ha, hb⟩

/-- C6: a Bounded Ordered Cache built with capacity `C > 0` keeps its
capacity and satisfies `Len ≤ C` after every public operation (any sequence
of `Add`, `Get`, `Remove`, `RemoveOldest`, `Purge` and the pure reads);
moreover a single `Add` reports an eviction exactly when it inserts a new
key into a full cache, the evicted entry is precisely the current oldest
(the head of the order), and when no eviction is reported no entry is
lost. -/
theorem lru_capacity_invariant (C : Int) (c0 : LRUG K V)
    (h0 : NewLRUG K V C = Except.ok c0) (ops : List (LRUOp K V)) :
    ((LRURun c0 ops).size = C ∧ (LRURun c0 ops).Len ≤ C) ∧
    (∀ (c : LRUG K V) (k : K) (v : V), c.Len ≤ c.size → 1 ≤ c.size →
      c.NodupKeys →
      (((c.Add k v).1 = true ↔ (c.Contains k = false ∧ c.Len = c.size)) ∧
       ((c.Add k v).1 = true →
         (c.Add k v).2.items = c.items.tail ++ [(k, v)]) ∧
       ((c.Add k v).1 = false → ∀ a, a ∈ c.items.map Prod.fst →
         a ∈ (c.Add k v).2.items.map Prod.fst))) := by
  constructor
  · have hCpos : ¬C ≤ 0 := by
      intro hC
      rw [NewLRUG_err C hC] at h0
      exact Except.noConfusion h0
    have hc0 : c0 = { size := C, items := [] } := by
      rw [NewLRUG_ok C hCpos] at h0
      exact (Except.ok.inj h0).symm
    subst hc0
    have := LRURun_size_len { size := C, items := [] } ops
      (by show (1 : Int) ≤ C; omega) (by show (0 : Int) ≤ C; omega)
    exact this
  · intro c k v hle hpos hnd
    refine ⟨?_, ?_, ?_⟩
    · rw [LRUG.Add_fst_iff c k v hle]
      constructor
      · rintro ⟨hnm, hf⟩
        exact ⟨(LRUG.contains_false_iff _ _).2 hnm, hf⟩
      · rintro ⟨hcf, hf⟩
        exact ⟨(LRUG.contains_false_iff _ _).1 hcf, hf⟩
    · intro hev
      obtain ⟨hnm, hf⟩ := (LRUG.Add_fst_iff c k v hle).1 hev
      rw [LRUG.Add_of_not_mem_full c k v hnm hnd hpos hf]
    · intro hnoev a ha
      exact LRUG.mem_Add_no_evict c k a v hle hnoev ha

/-- C6 witness: the invariant on a fresh capacity-2 cache over a concrete
operation sequence, and the single-Add part at a concrete full cache. -/
theorem lru_capacity_invariant_witness :
    NewLRUG Nat Nat 2 = Except.ok { size := 2, items := [] } ∧
    ((LRURun { size := 2, items := [] } [LRUOp.add 1 10, LRUOp.add 2 20,
        LRUOp.add 3 30, LRUOp.get 2]).size = 2 ∧
      (LRURun { size := 2, items := [] } [LRUOp.add 1 10, LRUOp.add 2 20,
        LRUOp.add 3 30, LRUOp.get 2]).Len ≤ 2) ∧
    (∀ (c : LRUG Nat Nat) (k : Nat) (v : Nat), c.Len ≤ c.size → 1 ≤ c.size →
      c.NodupKeys →
      (((c.Add k v).1 = true ↔ (c.Contains k = false ∧ c.Len = c.size)) ∧
       ((c.Add k v).1 = true →
         (c.Add k v).2.items = c.items.tail ++ [(k, v)]) ∧
       ((c.Add k v).1 = false → ∀ a, a ∈ c.items.map Prod.fst →
         a ∈ (c.Add k v).2.items.map Prod.fst))) := by
  have h0 : NewLRUG Nat Nat 2 = Except.ok { size := 2, items := [] } :=
    NewLRUG_ok 2 (by norm_num)
  have h := lru_capacity_invariant 2 { size := 2, items := [] } h0
    [LRUOp.add 1 10, LRUOp.add 2 20, LRUOp.add 3 30, LRUOp.get 2]
  exact ⟨h0, h.1, h.2⟩

/-- C7 (amended): for a nonnegative new capacity `n`, `Resize n` on a cache
holding `m` entries with unique keys returns `max (m - n) 0`, adopts size
`n`, drops exactly the `max (m - n) 0` currently-oldest entries (a prefix of
the order), and leaves `Len = min m n`.  The restriction `0 ≤ n` is the
correction: for negative `n` the code still returns `m - n` but empties the
cache, so `Len = 0 ≠ min m n`. -/
theorem lru_resize_spec (c : LRUG K V) (n : Int) (hn : 0 ≤ n)
    (hnd : c.NodupKeys) :
    (c.Resize n).1 = max (c.Len - n) 0 ∧
    (c.Resize n).2.size = n ∧
    (c.Resize n).2.items = c.items.drop (c.Len - n).toNat ∧
    (c.Resize n).2.Len = min c.Len n := by
  unfold LRUG.Resize
  dsimp only
  have hitems : (c.removeOldestN
      (if c.Len - n < 0 then 0 else c.Len - n).toNat).items
      = c.items.drop (c.Len - n).toNat := by
    rw [LRUG.removeOldestN_items_of_nodup c _ hnd]
    congr 1
    split
    · omega
    · rfl
  refine ⟨?_, rfl, hitems, ?_⟩
  · split
    · omega
    · omega
  · show ((c.removeOldestN
        (if c.Len - n < 0 then 0 else c.Len - n).toNat).items.length : Int)
      = min c.Len n
    rw [hitems, List.length_drop]
    unfold LRUG.Len
    omega

/-- C7 counterexample: `Resize (-1)` on a freshly built capacity-2 cache
holding one entry returns `2 = max (1 - (-1)) 0` but leaves `Len = 0`, while
the claim demands `Len = min 1 (-1) = -1`. -/
theorem lru_resize_cex :
    NewLRUG Nat Nat 2 = Except.ok { size := 2, items := [] } ∧
    ((LRUG.Add { size := 2, items := ([] : List (Nat × Nat)) } 1 10).2).Len = 1 ∧
    (((LRUG.Add { size := 2, items := ([] : List (Nat × Nat)) } 1 10).2).Resize
      (-1)).1 = 2 ∧
    (((LRUG.Add { size := 2, items := ([] : List (Nat × Nat)) } 1 10).2).Resize
      (-1)).2.Len = 0 ∧
    (((LRUG.Add { size := 2, items := ([] : List (Nat × Nat)) } 1 10).2).Resize
        (-1)).2.Len
      ≠ min (((LRUG.Add { size := 2, items := ([] : List (Nat × Nat)) } 1
        10).2).Len) (-1) :=
  ⟨NewLRUG_ok 2 (by norm_num), by decide, by decide, by decide, by decide⟩

/-- C7 witness: shrinking the capacity-3 cache holding 3 entries to
capacity 1 evicts the two oldest entries. -/
theorem lru_resize_spec_witness :
    ((0 : Int) ≤ 1 ∧ lruThree.NodupKeys) ∧
    ((lruThree.Resize 1).1 = max (lruThree.Len - 1) 0 ∧
      (lruThree.Resize 1).2.size = 1 ∧
      (lruThree.Resize 1).2.items = lruThree.items.drop (lruThree.Len - 1).toNat ∧
      (lruThree.Resize 1).2.Len = min lruThree.Len 1) :=
  ⟨⟨by norm_num, by unfold LRUG.NodupKeys; decide⟩,
    lru_resize_spec lruThree 1 (by norm_num) (by unfold LRUG.NodupKeys; decide)⟩

/-- C8: `Get` returns `(value, found)`; a hit returns the stored value and
moves the key to the most-recently-used position (last in the order),
changing no membership and (with unique keys) no count, while a miss changes
nothing at all.  Consequently `Add k1; Add k2; Get k1` on a fresh cache of
capacity at least 2 (with `k1 ≠ k2`) makes `Keys` yield `[k2, k1]`, oldest
first. -/
theorem lru_get_spec (c : LRUG K V) (k : K) (C : Int) (c0 : LRUG K V)
    (hC : 2 ≤ C) (h0 : NewLRUG K V C = Except.ok c0)
    (k1 k2 : K) (v1 v2 : V) (hk : k1 ≠ k2) :
    (c.Peek k = none → c.Get k = (none, c)) ∧
    (∀ v, c.Peek k = some v → (c.Get k).1 = some v ∧
      ((c.Get k).2).items.getLast? = some (k, v) ∧
      (∀ a, a ∈ ((c.Get k).2).items.map Prod.fst ↔
        a ∈ c.items.map Prod.fst) ∧
      (c.NodupKeys → ((c.Get k).2).Len = c.Len)) ∧
    ((((((c0.Add k1 v1).2).Add k2 v2).2).Get k1).2).Keys = [k2, k1] := by
  refine ⟨fun h => LRUG.Get_of_peek_none c k h, ?_, ?_⟩
  · intro v hv
    rw [LRUG.Get_of_peek_some c k v hv]
    refine ⟨rfl, ?_, ?_, ?_⟩
    · show (omToTail c.items k).getLast? = some (k, v)
      unfold omToTail
      rw [show omGet c.items k = some v from hv]
      exact List.getLast?_concat _
    · intro a
      exact mem_map_fst_omToTail c.items k a
    · intro hnd
      show ((omToTail c.items k).length : Int) = c.Len
      rw [length_omToTail_of_nodup _ _ hnd]
      rfl
  · have hCpos : ¬C ≤ 0 := by omega
    have hc0 : c0 = { size := C, items := [] } := by
      rw [NewLRUG_ok C hCpos] at h0
      exact (Except.ok.inj h0).symm
    subst hc0
    have h1 : ({ size := C, items := [] } : LRUG K V).Add k1 v1
        = (false, { size := C, items := [(k1, v1)] }) := by
      have := LRUG.Add_of_not_mem_room
        (c := ({ size := C, items := [] } : LRUG K V)) k1 v1 (by simp)
        (by show (0 : Int) < C; omega)
      simpa using this
    rw [h1]
    have h2 : ({ size := C, items := [(k1, v1)] } : LRUG K V).Add k2 v2
        = (false, { size := C, items := [(k1, v1), (k2, v2)] }) := by
      have := LRUG.Add_of_not_mem_room
        (c := ({ size := C, items := [(k1, v1)] } : LRUG K V)) k2 v2
        (by simp [Ne.symm hk]) (by show (1 : Int) < C; omega)
      simpa using this
    rw [h2]
    have hpeek : ({ size := C, items := [(k1, v1), (k2, v2)] } : LRUG K V).Peek k1
        = some v1 := by
      simp [LRUG.Peek, omGet]
    rw [LRUG.Get_of_peek_some _ _ _ hpeek]
    show ((omToTail [(k1, v1), (k2, v2)] k1).map Prod.fst) = [k2, k1]
    unfold omToTail
    simp [omGet, omErase, Ne.symm hk]

/-- C8 witness: the `Get` specification instantiated on a concrete
capacity-2 cache (query key 7 for the generic part) and on keys 1, 2 for the
`[k2, k1]` recency ordering. -/
theorem lru_get_spec_witness :
    (2 ≤ (2 : Int) ∧ NewLRUG Nat Nat 2 = Except.ok { size := 2, items := [] } ∧
      (1 : Nat) ≠ 2) ∧
    ((lruOne.Peek 7 = none → lruOne.Get 7 = (none, lruOne)) ∧
    (∀ v, lruOne.Peek 7 = some v → (lruOne.Get 7).1 = some v ∧
      ((lruOne.Get 7).2).items.getLast? = some (7, v) ∧
      (∀ a, a ∈ ((lruOne.Get 7).2).items.map Prod.fst ↔
        a ∈ lruOne.items.map Prod.fst) ∧
      (lruOne.NodupKeys → ((lruOne.Get 7).2).Len = lruOne.Len)) ∧
    (((((LRUG.Add { size := 2, items := ([] : List (Nat × Nat)) } 1 10).2).Add
        2 20).2).Get 1).2.Keys = [2, 1]) :=
  ⟨⟨by norm_num, NewLRUG_ok 2 (by norm_num), by decide⟩,
    lru_get_spec lruOne 7 2 { size := 2, items := [] } (by norm_num)
      (NewLRUG_ok 2 (by norm_num)) 1 2 10 20 (by decide)⟩

/-- C9: immediately after `Add k v` returns on a well-formed Two-Queue
cache, the key is cached with that value: `Peek k = some v` and
`Contains k = true` — on every branch of `Add` the pool the key lands in has
room for it and `ensureSpace` never evicts the key being added. -/
theorem twoq_add_caches [Inhabited K] [Inhabited V] (c : TwoQueueCacheG K V)
    (k : K) (v : V) (hwf : TwoQWF c) :
    (c.Add k v).Peek k = some v ∧ (c.Add k v).Contains k = true := by
  unfold TwoQueueCacheG.Add
  by_cases hf : c.frequent.Contains k = true
  · rw [if_pos hf]
    have hp : ((c.frequent.Add k v).2).Peek k = some v :=
      LRUG.peek_Add_self _ _ _ (by rw [hwf.fsize]; exact hwf.size_pos) hwf.flen
    have hc : ((c.frequent.Add k v).2).Contains k = true :=
      (LRUG.contains_iff _ _).2 (LRUG.mem_of_peek_some _ _ _ hp)
    constructor
    · unfold TwoQueueCacheG.Peek
      dsimp only
      rw [hp]
    · unfold TwoQueueCacheG.Contains
      dsimp only
      rw [hc]
      rfl
  rw [if_neg hf]
  by_cases hr : c.recent.Contains k = true
  · rw [if_pos hr]
    have hp : ((c.frequent.Add k v).2).Peek k = some v :=
      LRUG.peek_Add_self _ _ _ (by rw [hwf.fsize]; exact hwf.size_pos) hwf.flen
    have hc : ((c.frequent.Add k v).2).Contains k = true :=
      (LRUG.contains_iff _ _).2 (LRUG.mem_of_peek_some _ _ _ hp)
    constructor
    · unfold TwoQueueCacheG.Peek
      dsimp only
      rw [hp]
    · unfold TwoQueueCacheG.Contains
      dsimp only
      rw [hc]
      rfl
  rw [if_neg hr]
  by_cases hgst : c.recentEvict.Contains k = true
  · rw [if_pos hgst]
    dsimp only
    have hwf1 : TwoQWF (c.ensureSpace true) := TwoQWF_ensureSpace c true hwf
    have hp : (((c.ensureSpace true).frequent.Add k v).2).Peek k = some v :=
      LRUG.peek_Add_self _ _ _ (by rw [hwf1.fsize]; exact hwf1.size_pos)
        hwf1.flen
    have hc : (((c.ensureSpace true).frequent.Add k v).2).Contains k = true :=
      (LRUG.contains_iff _ _).2 (LRUG.mem_of_peek_some _ _ _ hp)
    constructor
    · unfold TwoQueueCacheG.Peek
      dsimp only
      rw [hp]
    · unfold TwoQueueCacheG.Contains
      dsimp only
      rw [hc]
      rfl
  · rw [if_neg hgst]
    dsimp only
    have hwf1 : TwoQWF (c.ensureSpace false) := TwoQWF_ensureSpace c false hwf
    have hknf : k ∉ (c.ensureSpace false).frequent.items.map Prod.fst := by
      intro hmem
      exact LRUG.not_mem_of_contains_false _ _ hf
        (c.ensureSpace_frequent_subset false k hmem)
    have hfp : (c.ensureSpace false).frequent.Peek k = none :=
      (LRUG.peek_eq_none_iff _ _).2 hknf
    have hp : (((c.ensureSpace false).recent.Add k v).2).Peek k = some v :=
      LRUG.peek_Add_self _ _ _ (by rw [hwf1.rsize]; exact hwf1.size_pos)
        hwf1.rlen
    have hc : (((c.ensureSpace false).recent.Add k v).2).Contains k = true :=
      (LRUG.contains_iff _ _).2 (LRUG.mem_of_peek_some _ _ _ hp)
    constructor
    · unfold TwoQueueCacheG.Peek
      dsimp only
      rw [hfp, hp]
    · unfold TwoQueueCacheG.Contains
      dsimp only
      rw [hc]
      simp

/-- C9 witness: adding a brand-new key, then re-adding an existing key with
a fresh value, on the concrete full size-4 default-ratio cache. -/
theorem twoq_add_caches_witness :
    TwoQWF twoqFull4 ∧
    ((twoqFull4.Add 9 90).Peek 9 = some 90 ∧
      (twoqFull4.Add 9 90).Contains 9 = true) :=
  ⟨twoqFull4_wf, twoq_add_caches twoqFull4 9 90 twoqFull4_wf⟩

end GolangLRU
